import Mathlib

/-!
# gocheckip: the refresh/query core of `main.go`

A shallow embedding of `updateIPNets`, `getIPNets` and `checkIPNet` together with
the parts of the Go standard library they call (`bytes.TrimSpace`, `bytes.Split`,
`net.ParseCIDR`, `net.ParseIP`, `(*net.IPNet).String`, `(*net.IPNet).Contains`,
`net.IP.String`, `json.Marshal`).

Conventions.
* A Go `string` / `[]byte` holding text is a `List Char` (well-formed UTF-8 text,
  one `Char` per rune); every parser below rejects any rune outside ASCII exactly
  as the byte-level Go code rejects the bytes of its encoding.
* A Go `[]byte` holding an address or a mask (`net.IP`, `net.IPMask`) is a
  `List Nat` of byte values; the nil slice is `[]`.
* A nilable pointer `*net.IPNet` is an `Option IPNet`.
* The map `map[string]struct{}` is a `Finset (List Char)`; the order in which a
  `range` statement yields its keys is not fixed by the language, so the two
  handlers take that order as an argument (see `IsRange`).
* The network is outside the program: `updateIPNets` takes the outcome of its fetch
  (`Fetched`) as an argument, `checkIPNet` the value of the request header.
* A run-time panic of a handler is the outcome `Outcome.panic`.
* The read-write lock of `shmap` plays no part: calls are made one at a time.
-/

namespace GoCheckIP

/-! ## bytes.TrimSpace, bytes.Split -/

/-- Predicate `unicode.IsSpace`: the Latin-1 spaces and the `White_Space` table. -/
def isSpace (c : Char) : Bool :=
  let n := c.toNat
  n == 0x09 || n == 0x0A || n == 0x0B || n == 0x0C || n == 0x0D || n == 0x20 ||
  n == 0x85 || n == 0xA0 || n == 0x1680 || (0x2000 ≤ n && n ≤ 0x200A) ||
  n == 0x2028 || n == 0x2029 || n == 0x202F || n == 0x205F || n == 0x3000

/-- Function `bytes.TrimSpace`: drops the leading and trailing white space. -/
def TrimSpace (s : List Char) : List Char :=
  ((s.dropWhile isSpace).reverse.dropWhile isSpace).reverse

/-- Function `bytes.Split(s, sep)` for the one-byte separator `sep`: the pieces
between the separators, always at least one piece. -/
def Split (sep : Char) : List Char → List (List Char)
  | [] => [[]]
  | c :: cs =>
    if c = sep then [] :: Split sep cs
    else
      match Split sep cs with
      | [] => [[c]]
      | l :: ls => (c :: l) :: ls

/-- Cut `s` at the first occurrence of `c` (`IndexByteString` followed by the two
slices `s[:i]` and `s[i+1:]`); `none` when `c` does not occur. -/
def cutByte (c : Char) : List Char → Option (List Char × List Char)
  | [] => none
  | x :: xs =>
    if x = c then some ([], xs)
    else
      match cutByte c xs with
      | none => none
      | some (a, b) => some (x :: a, b)

/-! ## Decimal and hexadecimal digits -/

/-- Whether `c` is an ASCII decimal digit (`'0' <= c && c <= '9'`). -/
def isDigit (c : Char) : Bool := 48 ≤ c.toNat && c.toNat ≤ 57

/-- Value of a hexadecimal digit, as in the three-way test of `parseIPv6`. -/
def hexVal (c : Char) : Option Nat :=
  let n := c.toNat
  if 48 ≤ n ∧ n ≤ 57 then some (n - 48)
  else if 97 ≤ n ∧ n ≤ 102 then some (n - 97 + 10)
  else if 65 ≤ n ∧ n ≤ 70 then some (n - 65 + 10)
  else none

/-- Table `digits` / `hexDigit`, the string `0123456789abcdef`. -/
def hexDigit (n : Nat) : Char :=
  if n < 10 then Char.ofNat (48 + n) else Char.ofNat (87 + n)

/-- Loop of `dtoi`: `none` once the value reaches `big = 0xFFFFFF`. -/
def dtoiLoop : List Char → Nat → Nat → Option (Nat × Nat)
  | [], n, i => some (n, i)
  | c :: cs, n, i =>
    if isDigit c then
      if n * 10 + (c.toNat - 48) ≥ 0xFFFFFF then none
      else dtoiLoop cs (n * 10 + (c.toNat - 48)) (i + 1)
    else some (n, i)

/-- Function `dtoi`: the leading decimal number of `s` and the count of digits
read; `none` stands for `ok == false` (no digit, or a value of `0xFFFFFF` or more). -/
def dtoi (s : List Char) : Option (Nat × Nat) :=
  match dtoiLoop s 0 0 with
  | none => none
  | some (n, i) => if i = 0 then none else some (n, i)

/-- Loop of `uitoa`, filling the 20-byte buffer from the right. -/
def uitoaLoop : Nat → Nat → List Char → List Char
  | 0, _, buf => buf
  | fuel + 1, val, buf =>
    if val ≥ 10 then uitoaLoop fuel (val / 10) (hexDigit (val - val / 10 * 10) :: buf)
    else hexDigit val :: buf

/-- Function `uitoa`: decimal text of an unsigned integer (20 digits hold a `uint`). -/
def uitoa (val : Nat) : List Char :=
  if val = 0 then ['0'] else uitoaLoop 20 val []

/-- Function `appendDecimal` of `net/netip`: decimal text of a `uint8`. -/
def appendDecimal (x : Nat) : List Char :=
  (if x ≥ 100 then [hexDigit (x / 100)] else []) ++
  (if x ≥ 10 then [hexDigit (x / 10 % 10)] else []) ++
  [hexDigit (x % 10)]

/-- Function `appendHex` of `net/netip`: hexadecimal text of a `uint16`, no leading zero. -/
def appendHex (x : Nat) : List Char :=
  (if x ≥ 0x1000 then [hexDigit (x / 4096)] else []) ++
  (if x ≥ 0x100 then [hexDigit (x / 256 % 16)] else []) ++
  (if x ≥ 0x10 then [hexDigit (x / 16 % 16)] else []) ++
  [hexDigit (x % 16)]

/-- Function `hexString`: two hexadecimal digits per byte. -/
def hexString : List Nat → List Char
  | [] => []
  | b :: bs => hexDigit (b / 16) :: hexDigit (b % 16) :: hexString bs

/-! ## netip.ParseAddr -/

/-- Parsed address (`netip.Addr`): four bytes, or sixteen bytes with a zone. -/
inductive Addr where
  | v4 (fields : List Nat)
  | v6 (ip : List Nat) (zone : List Char)
  deriving DecidableEq, Repr

/-- Loop of `parseIPv4Fields`. `first` is `i == 0`, `prevDot` is `s[i-1] == '.'`,
`fields` holds the octets stored so far (`pos` is its length). The result is the
stored octets and the value of the last octet. -/
def parseIPv4Loop :
    List Char → Bool → Bool → Nat → Nat → List Nat → Option (List Nat × Nat)
  | [], _, _, val, _, fields => some (fields, val)
  | c :: cs, first, prevDot, val, digLen, fields =>
    if isDigit c then
      if digLen = 1 ∧ val = 0 then none
      else if val * 10 + c.toNat - 48 > 255 then none
      else parseIPv4Loop cs false false (val * 10 + c.toNat - 48) (digLen + 1) fields
    else if c = '.' then
      if first ∨ cs = [] ∨ prevDot then none
      else if fields.length = 3 then none
      else parseIPv4Loop cs false true 0 0 (fields ++ [val])
    else none

/-- Function `parseIPv4Fields`: four decimal octets without leading zeros. -/
def parseIPv4Fields (s : List Char) : Option (List Nat) :=
  match parseIPv4Loop s true false 0 0 [] with
  | none => none
  | some (fields, val) => if fields.length < 3 then none else some (fields ++ [val])

/-- Function `parseIPv4` of `net/netip`. -/
def parseIPv4 (s : List Char) : Option Addr :=
  match parseIPv4Fields s with
  | none => none
  | some fields => some (Addr.v4 fields)

/-- Inner loop of `parseIPv6` reading one group of hexadecimal digits: the value,
the count of digits and the unread rest; `none` on a fifth digit or a value above
`0xFFFF`. The accumulator is a `uint32`. -/
def scanHex : List Char → Nat → Nat → Option (Nat × Nat × List Char)
  | [], off, acc => some (acc, off, [])
  | c :: cs, off, acc =>
    match hexVal c with
    | none => some (acc, off, c :: cs)
    | some d =>
      if off > 3 then none
      else if (acc * 16 + d) % 4294967296 > 0xFFFF then none
      else scanHex cs (off + 1) ((acc * 16 + d) % 4294967296)

/-- Main loop of `parseIPv6` (`for i < 16`). `ip` holds the bytes stored so far
(`i` is its length), `ellipsis` is the position of `::` if one was read. At most
eight rounds are run, each storing two bytes. The result is the unread rest, the
stored bytes and the ellipsis. -/
def parseIPv6Loop : Nat → List Char → List Nat → Option Nat →
    Option (List Char × List Nat × Option Nat)
  | 0, s, ip, ellipsis => some (s, ip, ellipsis)
  | fuel + 1, s, ip, ellipsis =>
    if ¬ ip.length < 16 then some (s, ip, ellipsis)
    else
      match scanHex s 0 0 with
      | none => none
      | some (acc, off, rest) =>
        if off = 0 then none
        else if rest.head? = some '.' then
          if ellipsis = none ∧ ip.length ≠ 12 then none
          else if ip.length + 4 > 16 then none
          else
            match parseIPv4Fields s with
            | none => none
            | some fields => some ([], ip ++ fields, ellipsis)
        else
          match rest with
          | [] => some ([], ip ++ [acc / 256 % 256, acc % 256], ellipsis)
          | c :: rest1 =>
            if c ≠ ':' then none
            else
              match rest1 with
              | [] => none
              | c1 :: rest2 =>
                if c1 = ':' then
                  if ellipsis.isSome then none
                  else if rest2 = [] then
                    some ([], ip ++ [acc / 256 % 256, acc % 256], some (ip.length + 2))
                  else
                    parseIPv6Loop fuel rest2 (ip ++ [acc / 256 % 256, acc % 256])
                      (some (ip.length + 2))
                else
                  parseIPv6Loop fuel rest1 (ip ++ [acc / 256 % 256, acc % 256]) ellipsis

/-- End of `parseIPv6`: the whole text must be used, and a short address is
completed by the zero bytes the ellipsis stands for. -/
def parseIPv6Finish (zone : List Char) :
    Option (List Char × List Nat × Option Nat) → Option Addr
  | none => none
  | some (s, ip, ellipsis) =>
    if s ≠ [] then none
    else if ip.length < 16 then
      match ellipsis with
      | none => none
      | some e => some (Addr.v6 (ip.take e ++ List.replicate (16 - ip.length) 0 ++ ip.drop e) zone)
    else if ellipsis.isSome then none
    else some (Addr.v6 ip zone)

/-- Function `parseIPv6` of `net/netip`. -/
def parseIPv6 (inp : List Char) : Option Addr :=
  match (match cutByte '%' inp with
         | none => some (inp, [])
         | some (s, zone) => if zone = [] then none else some (s, zone)) with
  | none => none
  | some (s, zone) =>
    if s.take 2 = [':', ':'] then
      if s.drop 2 = [] then some (Addr.v6 (List.replicate 16 0) zone)
      else parseIPv6Finish zone (parseIPv6Loop 8 (s.drop 2) [] (some 0))
    else parseIPv6Finish zone (parseIPv6Loop 8 s [] none)

/-- Scan of `netip.ParseAddr` for the first `.`, `:` or `%` of `s`, which selects
the parser applied to the whole text `whole`. -/
def parseAddrScan (whole : List Char) : List Char → Option Addr
  | [] => none
  | c :: cs =>
    if c = '.' then parseIPv4 whole
    else if c = ':' then parseIPv6 whole
    else if c = '%' then none
    else parseAddrScan whole cs

/-- Function `netip.ParseAddr`. -/
def ParseAddr (s : List Char) : Option Addr := parseAddrScan s s

/-- Prefix `v4InV6Prefix` of an IPv4-mapped address. -/
def v4InV6Prefix : List Nat := [0, 0, 0, 0, 0, 0, 0, 0, 0, 0, 0xff, 0xff]

/-- Method `Addr.As16`. -/
def Addr.As16 : Addr → List Nat
  | Addr.v4 fields => v4InV6Prefix ++ fields
  | Addr.v6 ip _ => ip

/-- Method `Addr.BitLen`. -/
def Addr.BitLen : Addr → Nat
  | Addr.v4 _ => 32
  | Addr.v6 _ _ => 128

/-- Method `Addr.Zone`. -/
def Addr.Zone : Addr → List Char
  | Addr.v4 _ => []
  | Addr.v6 _ zone => zone

/-! ## net.IP, net.IPMask, net.IPNet -/

/-- Function `net.ParseIP`: the 16-byte form of the address, `none` for the nil `IP`. -/
def ParseIP (s : List Char) : Option (List Nat) :=
  match ParseAddr s with
  | none => none
  | some a => if a.Zone ≠ [] then none else some a.As16

/-- Method `IP.To4`: the 4-byte form, `[]` (nil) if `ip` is not an IPv4 address. -/
def To4 (ip : List Nat) : List Nat :=
  if ip.length = 4 then ip
  else if ip.length = 16 ∧ ip.take 12 = v4InV6Prefix then ip.drop 12
  else []

/-- Loop of `CIDRMask`: `l` bytes, the first `n` bits set. -/
def cidrMaskLoop : Nat → Nat → List Nat
  | 0, _ => []
  | l + 1, n =>
    if n ≥ 8 then 0xff :: cidrMaskLoop l (n - 8)
    else (255 - 255 / 2 ^ n) :: cidrMaskLoop l 0

/-- Function `net.CIDRMask(ones, bits)`; `[]` is the nil mask. -/
def CIDRMask (ones bits : Nat) : List Nat :=
  if bits ≠ 32 ∧ bits ≠ 128 then []
  else if ones > bits then []
  else cidrMaskLoop (bits / 8) ones

/-- Method `IP.Mask`; `[]` is the nil result. -/
def Mask (ip mask : List Nat) : List Nat :=
  let mask1 := if mask.length = 16 ∧ ip.length = 4 ∧ (mask.take 12).all (· == 0xff)
    then mask.drop 12 else mask
  let ip1 := if mask1.length = 4 ∧ ip.length = 16 ∧ ip.take 12 = v4InV6Prefix
    then ip.drop 12 else ip
  if ip1.length ≠ mask1.length then [] else List.zipWith (· &&& ·) ip1 mask1

/-- Network (`net.IPNet`): network number and mask. -/
structure IPNet where
  IP : List Nat
  Mask : List Nat
  deriving DecidableEq, Repr

/-- Function `net.ParseCIDR`: the address and the network it denotes; `none` is the
error return, in which both results are nil. -/
def ParseCIDR (s : List Char) : Option (List Nat × IPNet) :=
  match cutByte '/' s with
  | none => none
  | some (addr, mask) =>
    match ParseAddr addr with
    | none => none
    | some ipAddr =>
      if ipAddr.Zone ≠ [] then none
      else
        match dtoi mask with
        | none => none
        | some (n, i) =>
          if i ≠ mask.length ∨ n > ipAddr.BitLen then none
          else
            some (ipAddr.As16,
              { IP := Mask ipAddr.As16 (CIDRMask n ipAddr.BitLen),
                Mask := CIDRMask n ipAddr.BitLen })

/-- Function `networkNumberAndMask`; `none` is the pair of nils. -/
def networkNumberAndMask (n : IPNet) : Option (List Nat × List Nat) :=
  let ip := if To4 n.IP = [] then n.IP else To4 n.IP
  if To4 n.IP = [] ∧ n.IP.length ≠ 16 then none
  else if n.Mask.length = 4 then
    if ip.length ≠ 4 then none else some (ip, n.Mask)
  else if n.Mask.length = 16 then
    if ip.length = 4 then some (ip, n.Mask.drop 12) else some (ip, n.Mask)
  else none

/-- Leading one bits of a byte (`for v&0x80 != 0 { n++; v <<= 1 }`) and the byte
left after the shifts. -/
def leadingOnes : Nat → Nat → Nat × Nat
  | 0, v => (0, v)
  | fuel + 1, v =>
    if v &&& 0x80 ≠ 0 then
      ((leadingOnes fuel (v * 2 % 256)).1 + 1, (leadingOnes fuel (v * 2 % 256)).2)
    else (0, v)

/-- Function `simpleMaskLength`: the count of leading ones of a mask made of ones
followed by zeros; `none` is the result `-1`. -/
def simpleMaskLength : List Nat → Option Nat
  | [] => some 0
  | v :: rest =>
    if v = 0xff then (simpleMaskLength rest).map (· + 8)
    else if (leadingOnes 8 v).2 ≠ 0 then none
    else if rest.all (· == 0) then some (leadingOnes 8 v).1
    else none

/-! ## Text forms: IP.String, IPMask.String, IPNet.String -/

/-- Dotted form of four bytes (`Addr.String` of an IPv4 address). -/
def string4 (ip : List Nat) : List Char :=
  appendDecimal (ip.getD 0 0) ++ '.' :: appendDecimal (ip.getD 1 0) ++
    '.' :: appendDecimal (ip.getD 2 0) ++ '.' :: appendDecimal (ip.getD 3 0)

/-- Method `Addr.v6u16`: the `i`-th 16-bit group of a 16-byte address. -/
def v6u16 (ip : List Nat) (i : Nat) : Nat := ip.getD (2 * i) 0 * 256 + ip.getD (2 * i + 1) 0

/-- Inner loop of `appendTo6` (`for j < 8 && ip.v6u16(j) == 0 { j++ }`). -/
def zeroRunEnd (ip : List Nat) : Nat → Nat → Nat
  | 0, j => j
  | fuel + 1, j => if j < 8 ∧ v6u16 ip j = 0 then zeroRunEnd ip fuel (j + 1) else j

/-- One round of the first loop of `appendTo6`: `(zeroStart, zeroEnd)` after index `i`;
the difference `zeroEnd - zeroStart` is a `uint8`. -/
def zeroRunStep (ip : List Nat) (z : Nat × Nat) (i : Nat) : Nat × Nat :=
  if zeroRunEnd ip 8 i - i ≥ 2 ∧ zeroRunEnd ip 8 i - i > (z.2 + 256 - z.1) % 256
  then (i, zeroRunEnd ip 8 i) else z

/-- First loop of `appendTo6`: the first longest run of two or more zero groups,
`(255, 255)` if there is none. -/
def zeroRun (ip : List Nat) : Nat × Nat :=
  (List.range 8).foldl (zeroRunStep ip) (255, 255)

/-- Second loop of `appendTo6`, from index `i`: the groups in hexadecimal, the run
`[zeroStart, zeroEnd)` written as `::`. -/
def appendTo6Loop (ip : List Nat) (zeroStart zeroEnd : Nat) : Nat → Nat → List Char
  | 0, _ => []
  | fuel + 1, i =>
    if ¬ i < 8 then []
    else if i = zeroStart then
      ':' :: ':' ::
        (if zeroEnd ≥ 8 then []
         else appendHex (v6u16 ip zeroEnd) ++ appendTo6Loop ip zeroStart zeroEnd fuel (zeroEnd + 1))
    else
      (if i > 0 then [':'] else []) ++ appendHex (v6u16 ip i) ++
        appendTo6Loop ip zeroStart zeroEnd fuel (i + 1)

/-- Text of a 16-byte address without zone (`Addr.string6`). -/
def string6 (ip : List Nat) : List Char :=
  appendTo6Loop ip (zeroRun ip).1 (zeroRun ip).2 8 0

/-- Method `IP.String`. -/
def IPString (ip : List Nat) : List Char :=
  if ip.length = 0 then "<nil>".toList
  else if ip.length ≠ 4 ∧ ip.length ≠ 16 then '?' :: hexString ip
  else if (To4 ip).length = 4 then string4 (To4 ip)
  else string6 ip

/-- Method `IPMask.String`. -/
def IPMaskString (m : List Nat) : List Char :=
  if m.length = 0 then "<nil>".toList else hexString m

/-- Method `(*IPNet).String`; the nil receiver gives `<nil>`. -/
def IPNetString : Option IPNet → List Char
  | none => "<nil>".toList
  | some n =>
    match networkNumberAndMask n with
    | none => "<nil>".toList
    | some (nn, m) =>
      match simpleMaskLength m with
      | none => IPString nn ++ '/' :: IPMaskString m
      | some l => IPString nn ++ '/' :: uitoa l

/-- Method `(*IPNet).Contains` on a non-nil receiver. -/
def Contains (n : IPNet) (ip : List Nat) : Bool :=
  let nm := (networkNumberAndMask n).getD ([], [])
  let ip1 := if To4 ip = [] then ip else To4 ip
  if ip1.length ≠ nm.1.length then false
  else decide (List.zipWith (· &&& ·) nm.1 nm.2 = List.zipWith (· &&& ·) ip1 nm.2)

/-! ## encoding/json -/

/-- Escape of one rune inside a JSON string (`appendString` with HTML escaping). -/
def jsonEscape (c : Char) : List Char :=
  let n := c.toNat
  if c = '\\' ∨ c = '"' then ['\\', c]
  else if n = 0x08 then ['\\', 'b']
  else if n = 0x0C then ['\\', 'f']
  else if n = 0x0A then ['\\', 'n']
  else if n = 0x0D then ['\\', 'r']
  else if n = 0x09 then ['\\', 't']
  else if n < 0x20 ∨ c = '<' ∨ c = '>' ∨ c = '&' then
    ['\\', 'u', '0', '0', hexDigit (n / 16), hexDigit (n % 16)]
  else if n = 0x2028 ∨ n = 0x2029 then ['\\', 'u', '2', '0', '2', hexDigit (n % 16)]
  else [c]

/-- JSON text of a Go string. -/
def jsonString (s : List Char) : List Char :=
  '"' :: (s.flatMap jsonEscape ++ ['"'])

/-- Elements of a JSON array, separated by commas. -/
def jsonElems : List (List Char) → List Char
  | [] => []
  | [x] => jsonString x
  | x :: y :: rest => jsonString x ++ ',' :: jsonElems (y :: rest)

/-- Result of `json.Marshal` on a `[]string`; the nil slice (`none`) is `null`. -/
def jsonMarshalStrings : Option (List (List Char)) → List Char
  | none => "null".toList
  | some xs => '[' :: (jsonElems xs ++ [']'])

/-- Result of `json.Marshal` on `realip` (one field `real_ip`, `omitempty`). -/
def jsonMarshalRealip (realIP : List Char) : List Char :=
  if realIP = [] then "\x7b\x7d".toList
  else "\x7b\"real_ip\":".toList ++ jsonString realIP ++ "\x7d".toList

/-! ## main.go -/

/-- Type `shmap`: the shared map of networks; its keys are the only content. -/
structure shmap where
  m : Finset (List Char)
  deriving DecidableEq

/-- Orders in which `range m` may yield the keys of `m`: each key once. -/
def IsRange (m : Finset (List Char)) (order : List (List Char)) : Prop :=
  order.Nodup ∧ order.toFinset = m

instance (m : Finset (List Char)) (order : List (List Char)) : Decidable (IsRange m order) :=
  inferInstanceAs (Decidable (_ ∧ _))

/-- Key stored for one line by the loop body of `updateIPNets`: the error of
`net.ParseCIDR` is logged and the loop goes on to `ipnet.String()`. -/
def updateIPNets.key (value : List Char) : List Char :=
  IPNetString ((ParseCIDR value).map Prod.snd)

/-- Outcome of the two calls that open `updateIPNets`: either `http.Get(url)` returned
an error, or it returned a response and `io.ReadAll` read `respBytes` from its body;
`readErr` tells whether `io.ReadAll` returned an error as well, in which case
`respBytes` holds the bytes read before it. -/
inductive Fetched where
  | getError
  | body (respBytes : List Char) (readErr : Bool)
  deriving DecidableEq

/-- Function `updateIPNets`; the parameter `url` enters through `resp`, the outcome of
fetching it. An error of `http.Get` ends the call; an error of `io.ReadAll` is logged
and the call goes on with the bytes read. The map is set to a fresh empty map and
one key is stored per line. -/
def updateIPNets (resp : Fetched) (ipnets : shmap) : shmap :=
  match resp with
  | Fetched.getError => ipnets
  | Fetched.body respBytes _ =>
    { m := (Split '\n' (TrimSpace respBytes)).foldl
        (fun m value => insert (updateIPNets.key value) m) ∅ }

/-- Slice `ipnets` built by the loop of `getIPNets`; `none` is the nil slice of
`var ipnets []string`. -/
def getIPNets.ipnets (order : List (List Char)) : Option (List (List Char)) :=
  order.foldl (fun acc ipnet => some (acc.getD [] ++ [ipnet])) none

/-- Handler `getIPNets`: the body written, `order` being the order in which the
keys of the map are ranged over. -/
def getIPNets (order : List (List Char)) : List Char :=
  jsonMarshalStrings (getIPNets.ipnets order)

/-- Outcome of a handler call: a panic, or the status and the body written. -/
inductive Outcome where
  | panic
  | response (status : Nat) (body : List Char)
  deriving DecidableEq, Repr

/-- Loop of `checkIPNet` over the keys in the order given: `some match`, or `none`
when `ipnet.Contains` is called on the nil network of a key that does not parse. -/
def checkIPNet.scan (realIP : List Nat) : List (List Char) → Option Bool
  | [] => some false
  | key :: rest =>
    match ParseCIDR key with
    | none => none
    | some (_, ipnet) => if Contains ipnet realIP then some true else checkIPNet.scan realIP rest

/-- Handler `checkIPNet`. `header` is the `X-Real-IP` header (`r.Header.Get` gives
the empty string when it is absent), `order` the order in which the keys of the
map are ranged over. -/
def checkIPNet (order : List (List Char)) (header : Option (List Char)) : Outcome :=
  match ParseIP (header.getD []) with
  | none => Outcome.response 400 "X-Real-IP header is not provided or malformed".toList
  | some realIP =>
    match checkIPNet.scan realIP order with
    | none => Outcome.panic
    | some isMatch =>
      Outcome.response (if isMatch then 503 else 200) (jsonMarshalRealip (IPString realIP))

/-! ## Auxiliary functions for the proofs -/

/-- Text of a list of 16-bit groups, each preceded by a colon. -/
def colonJoin : List Nat → List Char
  | [] => []
  | g :: gs => ':' :: (appendHex g ++ colonJoin gs)

/-- Bytes of a list of 16-bit groups, high byte first. -/
def groupBytes : List Nat → List Nat
  | [] => []
  | g :: gs => g / 256 % 256 :: g % 256 :: groupBytes gs

/-- Shape of the result of `zeroRun`: no run, or a run of at least two zero groups. -/
def ZeroRunOK (x : List Nat) (z : Nat × Nat) : Prop :=
  z = (255, 255) ∨ (z.1 + 2 ≤ z.2 ∧ z.2 ≤ 8 ∧ ∀ k, z.1 ≤ k → k < z.2 → v6u16 x k = 0)

/-- Text written after the `::` of a run that ends at group `ze`. -/
def afterRun (x : List Nat) (ze : Nat) : List Char :=
  if ze ≥ 8 then []
  else appendHex (v6u16 x ze) ++ colonJoin ((List.range' (ze + 1) (7 - ze)).map (v6u16 x))

/-- Well-formed parsed address: four, respectively sixteen, byte values. -/
def Addr.WF : Addr → Prop
  | Addr.v4 fields => fields.length = 4 ∧ ∀ b ∈ fields, b < 256
  | Addr.v6 ip _ => ip.length = 16 ∧ ∀ b ∈ ip, b < 256

/-- The text of the network `n` parses, to the network made of the network number and
the mask that `networkNumberAndMask` gives for `n`; the text of that network is the
text of `n` again, and it is `n` itself unless `n` holds an IPv4-mapped address in
its 16-byte form. -/
def Reparses (n : IPNet) : Prop :=
  ∃ ip1 n1 nn m l, ParseCIDR (IPNetString (some n)) = some (ip1, n1) ∧
    networkNumberAndMask n = some (nn, m) ∧ networkNumberAndMask n1 = some (nn, m) ∧
    n1 = { IP := nn, Mask := m } ∧
    simpleMaskLength m = some l ∧ IPNetString (some n1) = IPNetString (some n) ∧
    (To4 n.IP = [] ∨ n.IP.length = 4 → n1 = n)

/-! ## Facts about the library functions -/

theorem dtoi_uitoa : ∀ n < 129, dtoi (uitoa n) = some (n, (uitoa n).length) := by decide

theorem simpleMaskLength_CIDRMask_128 :
    ∀ n < 129, simpleMaskLength (CIDRMask n 128) = some n := by decide

theorem simpleMaskLength_CIDRMask_32 :
    ∀ n < 33, simpleMaskLength (CIDRMask n 32) = some n := by decide

theorem CIDRMask_drop : ∀ n < 129, 96 ≤ n →
    (CIDRMask n 128).drop 12 = CIDRMask (n - 96) 32 ∧
    (CIDRMask n 128).take 12 = List.replicate 12 255 := by decide

theorem CIDRMask_lt_96 : ∀ n < 96, (CIDRMask n 128).getD 11 0 < 255 := by decide

theorem CIDRMask_length_128 : ∀ n < 129, (CIDRMask n 128).length = 16 := by decide

theorem CIDRMask_length_32 : ∀ n < 33, (CIDRMask n 32).length = 4 := by decide

theorem hexDigit_toNat :
    ∀ n < 16, (hexDigit n).toNat = if n < 10 then 48 + n else 87 + n := by decide

theorem hexVal_hexDigit : ∀ n < 16, hexVal (hexDigit n) = some n := by decide

theorem isDigit_hexDigit : ∀ n < 10, isDigit (hexDigit n) = true := by decide

theorem parseIPv4Loop_digit (d : Nat) (hd : d < 10) (cs : List Char) (first prevDot : Bool)
    (val digLen : Nat) (fields : List Nat) (h1 : ¬ (digLen = 1 ∧ val = 0))
    (h2 : val * 10 + d ≤ 255) :
    parseIPv4Loop (hexDigit d :: cs) first prevDot val digLen fields =
      parseIPv4Loop cs false false (val * 10 + d) (digLen + 1) fields := by
  have ht : (hexDigit d).toNat = 48 + d := by
    rw [hexDigit_toNat d (by omega)]; simp [hd]
  have e : val * 10 + (48 + d) - 48 = val * 10 + d := by omega
  simp only [parseIPv4Loop, isDigit_hexDigit d hd, if_true, h1, if_false, ht, e]
  simp [Nat.not_lt.2 h2]

theorem appendDecimal_ne_nil (x : Nat) : appendDecimal x ≠ [] := by
  simp [appendDecimal]

theorem parseIPv4Loop_appendDecimal (x : Nat) (hx : x < 256) (rest : List Char)
    (first prevDot : Bool) (fields : List Nat) :
    ∃ k, k ≠ 0 ∧ parseIPv4Loop (appendDecimal x ++ rest) first prevDot 0 0 fields =
      parseIPv4Loop rest false false x k fields := by
  by_cases h100 : x ≥ 100
  · refine ⟨3, by omega, ?_⟩
    have h10 : x ≥ 10 := by omega
    simp only [appendDecimal, h100, h10, if_true, List.cons_append, List.nil_append,
      List.append_assoc]
    rw [parseIPv4Loop_digit _ (by omega) _ _ _ _ _ _ (by omega) (by omega),
      parseIPv4Loop_digit _ (by omega) _ _ _ _ _ _ (by omega) (by omega),
      parseIPv4Loop_digit _ (by omega) _ _ _ _ _ _ (by omega) (by omega)]
    congr 1
    omega
  · by_cases h10 : x ≥ 10
    · refine ⟨2, by omega, ?_⟩
      simp only [appendDecimal, h100, h10, if_true, if_false, List.cons_append, List.nil_append,
        List.append_assoc]
      rw [parseIPv4Loop_digit _ (by omega) _ _ _ _ _ _ (by omega) (by omega),
        parseIPv4Loop_digit _ (by omega) _ _ _ _ _ _ (by omega) (by omega)]
      congr 1
      omega
    · refine ⟨1, by omega, ?_⟩
      simp only [appendDecimal, h100, h10, if_false, List.cons_append, List.nil_append,
        List.append_assoc]
      rw [parseIPv4Loop_digit _ (by omega) _ _ _ _ _ _ (by omega) (by omega)]
      congr 1
      omega

theorem parseIPv4Loop_dot (cs : List Char) (val digLen : Nat) (fields : List Nat)
    (h3 : fields.length ≠ 3) (hcs : cs ≠ []) :
    parseIPv4Loop ('.' :: cs) false false val digLen fields =
      parseIPv4Loop cs false true 0 0 (fields ++ [val]) := by
  have : isDigit '.' = false := by decide
  simp [parseIPv4Loop, this, h3, hcs]

theorem parseIPv4Fields_string4 (a b c d : Nat) (ha : a < 256) (hb : b < 256) (hc : c < 256)
    (hd : d < 256) : parseIPv4Fields (string4 [a, b, c, d]) = some [a, b, c, d] := by
  obtain ⟨k1, _, e1⟩ := parseIPv4Loop_appendDecimal a ha
    ('.' :: (appendDecimal b ++ '.' :: (appendDecimal c ++ '.' :: (appendDecimal d ++ []))))
    true false []
  obtain ⟨k2, _, e2⟩ := parseIPv4Loop_appendDecimal b hb
    ('.' :: (appendDecimal c ++ '.' :: (appendDecimal d ++ []))) false true [a]
  obtain ⟨k3, _, e3⟩ := parseIPv4Loop_appendDecimal c hc
    ('.' :: (appendDecimal d ++ [])) false true [a, b]
  obtain ⟨k4, _, e4⟩ := parseIPv4Loop_appendDecimal d hd [] false true [a, b, c]
  have s1 : string4 [a, b, c, d] = appendDecimal a ++
      ('.' :: (appendDecimal b ++ '.' :: (appendDecimal c ++ '.' :: (appendDecimal d ++ [])))) := by
    simp [string4]
  have n1 : ∀ x rest, appendDecimal x ++ rest ≠ [] := by
    intro x rest; simp [appendDecimal_ne_nil]
  rw [parseIPv4Fields, s1, e1, parseIPv4Loop_dot _ _ _ _ (by simp) (n1 _ _)]
  simp only [List.nil_append, List.cons_append]
  rw [e2, parseIPv4Loop_dot _ _ _ _ (by simp) (n1 _ _)]
  simp only [List.nil_append, List.cons_append]
  rw [e3, parseIPv4Loop_dot _ _ _ _ (by simp) (n1 _ _)]
  simp only [List.nil_append, List.cons_append]
  rw [e4]
  simp [parseIPv4Loop]

theorem parseIPv4Loop_inv (s : List Char) : ∀ (first prevDot : Bool) (val digLen : Nat)
    (fields f : List Nat) (v : Nat), (∀ b ∈ fields, b < 256) → val < 256 → fields.length ≤ 3 →
    parseIPv4Loop s first prevDot val digLen fields = some (f, v) →
    (∀ b ∈ f, b < 256) ∧ v < 256 ∧ f.length ≤ 3 := by
  induction s with
  | nil =>
    intro first prevDot val digLen fields f v hf hv hl h
    simp only [parseIPv4Loop, Option.some.injEq, Prod.mk.injEq] at h
    obtain ⟨rfl, rfl⟩ := h
    exact ⟨hf, hv, hl⟩
  | cons c cs ih =>
    intro first prevDot val digLen fields f v hf hv hl h
    rw [parseIPv4Loop] at h
    split_ifs at h with h1 h2 h3 h4 h5 h6
    · exact ih _ _ _ _ _ _ _ hf (by omega) hl h
    · refine ih _ _ _ _ _ _ _ ?_ (by omega) ?_ h
      · intro b hb
        rcases List.mem_append.1 hb with hb | hb
        · exact hf b hb
        · simp only [List.mem_singleton] at hb; omega
      · simp only [List.length_append, List.length_singleton]; omega

theorem parseIPv4Fields_inv (s : List Char) (f : List Nat) (h : parseIPv4Fields s = some f) :
    f.length = 4 ∧ ∀ b ∈ f, b < 256 := by
  unfold parseIPv4Fields at h
  cases hp : parseIPv4Loop s true false 0 0 [] with
  | none => simp [hp] at h
  | some r =>
    obtain ⟨fields, val⟩ := r
    obtain ⟨h1, h2, h3⟩ := parseIPv4Loop_inv s _ _ _ _ _ _ _ (by simp) (by omega) (by simp) hp
    simp only [hp] at h
    split_ifs at h with h4
    simp only [Option.some.injEq] at h
    subst h
    refine ⟨by simp only [List.length_append, List.length_singleton]; omega, ?_⟩
    intro b hb
    rcases List.mem_append.1 hb with hb | hb
    · exact h1 b hb
    · simp only [List.mem_singleton] at hb; omega

theorem scanHex_digit (d : Nat) (hd : d < 16) (cs : List Char) (off acc : Nat) (ho : off ≤ 3)
    (ha : acc * 16 + d ≤ 0xFFFF) :
    scanHex (hexDigit d :: cs) off acc = scanHex cs (off + 1) (acc * 16 + d) := by
  have e : (acc * 16 + d) % 4294967296 = acc * 16 + d := by omega
  simp only [scanHex, hexVal_hexDigit d hd, e]
  simp [Nat.not_lt.2 ho, Nat.not_lt.2 ha]

theorem scanHex_stop (rest : List Char) (off acc : Nat)
    (h : ∀ c ∈ rest.head?, hexVal c = none) : scanHex rest off acc = some (acc, off, rest) := by
  cases rest with
  | nil => rfl
  | cons c cs =>
    have hc : hexVal c = none := h c (by simp)
    simp [scanHex, hc]

theorem scanHex_appendHex (g : Nat) (hg : g < 65536) (rest : List Char)
    (h : ∀ c ∈ rest.head?, hexVal c = none) :
    ∃ k, k ≠ 0 ∧ scanHex (appendHex g ++ rest) 0 0 = some (g, k, rest) := by
  by_cases h3 : g ≥ 0x1000
  · have h2 : g ≥ 0x100 := by omega
    have h1 : g ≥ 0x10 := by omega
    refine ⟨4, by omega, ?_⟩
    simp only [appendHex, h3, h2, h1, if_true, List.cons_append, List.nil_append,
      List.append_assoc]
    rw [scanHex_digit _ (by omega) _ _ _ (by omega) (by omega),
      scanHex_digit _ (by omega) _ _ _ (by omega) (by omega),
      scanHex_digit _ (by omega) _ _ _ (by omega) (by omega),
      scanHex_digit _ (by omega) _ _ _ (by omega) (by omega), scanHex_stop _ _ _ h]
    simp only [Option.some.injEq, Prod.mk.injEq, and_true]
    omega
  · by_cases h2 : g ≥ 0x100
    · have h1 : g ≥ 0x10 := by omega
      refine ⟨3, by omega, ?_⟩
      simp only [appendHex, h3, h2, h1, if_true, if_false, List.cons_append, List.nil_append,
        List.append_assoc]
      rw [scanHex_digit _ (by omega) _ _ _ (by omega) (by omega),
        scanHex_digit _ (by omega) _ _ _ (by omega) (by omega),
        scanHex_digit _ (by omega) _ _ _ (by omega) (by omega), scanHex_stop _ _ _ h]
      simp only [Option.some.injEq, Prod.mk.injEq, and_true]
      omega
    · by_cases h1 : g ≥ 0x10
      · refine ⟨2, by omega, ?_⟩
        simp only [appendHex, h3, h2, h1, if_true, if_false, List.cons_append, List.nil_append,
          List.append_assoc]
        rw [scanHex_digit _ (by omega) _ _ _ (by omega) (by omega),
          scanHex_digit _ (by omega) _ _ _ (by omega) (by omega), scanHex_stop _ _ _ h]
        simp only [Option.some.injEq, Prod.mk.injEq, and_true]
        omega
      · refine ⟨1, by omega, ?_⟩
        simp only [appendHex, h3, h2, h1, if_false, List.cons_append, List.nil_append,
          List.append_assoc]
        rw [scanHex_digit _ (by omega) _ _ _ (by omega) (by omega), scanHex_stop _ _ _ h]
        simp only [Option.some.injEq, Prod.mk.injEq, and_true]
        omega

theorem hexDigit_ne_colon : ∀ d < 16, hexDigit d ≠ ':' := by decide

theorem appendHex_cons (g : Nat) (hg : g < 65536) :
    ∃ d t, d < 16 ∧ appendHex g = hexDigit d :: t := by
  unfold appendHex
  split_ifs <;> exact ⟨_, _, by omega, rfl⟩

theorem hexVal_colon : hexVal ':' = none := by decide

theorem parseIPv6Loop_groups (gs : List Nat) : ∀ (g fuel : Nat) (ip : List Nat) (e : Option Nat),
    g < 65536 → (∀ x ∈ gs, x < 65536) → gs.length + 1 ≤ fuel →
    ip.length + 2 * (gs.length + 1) ≤ 16 →
    parseIPv6Loop fuel (appendHex g ++ colonJoin gs) ip e =
      some ([], ip ++ groupBytes (g :: gs), e) := by
  induction gs with
  | nil =>
    intro g fuel ip e hg _ hf hl
    obtain ⟨fuel, rfl⟩ : ∃ f, fuel = f + 1 := ⟨fuel - 1, by omega⟩
    obtain ⟨k, hk, hs⟩ := scanHex_appendHex g hg [] (by simp)
    simp only [List.length_nil] at hl
    have hlt : ip.length < 16 := by omega
    simp only [colonJoin, parseIPv6Loop, hs, hlt, not_true_eq_false, if_false, hk]
    simp [groupBytes]
  | cons g1 gs ih =>
    intro g fuel ip e hg hgs hf hl
    obtain ⟨fuel, rfl⟩ : ∃ f, fuel = f + 1 := ⟨fuel - 1, by omega⟩
    simp only [List.length_cons] at hl hf
    have hlt : ip.length < 16 := by omega
    obtain ⟨d, t, hd, hcons⟩ := appendHex_cons g1 (hgs g1 (List.mem_cons_self _ _))
    obtain ⟨k, hk, hs⟩ := scanHex_appendHex g hg (':' :: (appendHex g1 ++ colonJoin gs))
      (by simp [hexVal_colon])
    have hih := ih g1 fuel (ip ++ [g / 256 % 256, g % 256]) e (hgs g1 (List.mem_cons_self _ _))
      (fun x hx => hgs x (List.mem_cons_of_mem _ hx)) (by omega)
      (by simp only [List.length_append, List.length_cons, List.length_nil]; omega)
    simp only [colonJoin, parseIPv6Loop, hs, hlt, not_true_eq_false, if_false, hk]
    rw [hcons] at hih ⊢
    simp only [List.cons_append] at hih ⊢
    simp [hexDigit_ne_colon d hd, hih, groupBytes]

theorem parseIPv6Loop_groups_ellipsis (gs : List Nat) : ∀ (g fuel : Nat) (ip : List Nat)
    (tail : List Char),
    g < 65536 → (∀ x ∈ gs, x < 65536) → gs.length + 1 ≤ fuel →
    ip.length + 2 * (gs.length + 1) ≤ 16 →
    parseIPv6Loop fuel (appendHex g ++ (colonJoin gs ++ ':' :: ':' :: tail)) ip none =
      if tail = [] then
        some ([], ip ++ groupBytes (g :: gs), some (ip.length + 2 * (gs.length + 1)))
      else
        parseIPv6Loop (fuel - (gs.length + 1)) tail (ip ++ groupBytes (g :: gs))
          (some (ip.length + 2 * (gs.length + 1))) := by
  induction gs with
  | nil =>
    intro g fuel ip tail hg _ hf hl
    obtain ⟨fuel, rfl⟩ : ∃ f, fuel = f + 1 := ⟨fuel - 1, by omega⟩
    obtain ⟨k, hk, hs⟩ := scanHex_appendHex g hg (':' :: ':' :: tail) (by simp [hexVal_colon])
    simp only [List.length_nil] at hl
    have hlt : ip.length < 16 := by omega
    simp only [colonJoin, List.nil_append, parseIPv6Loop, hs, hlt, not_true_eq_false, if_false, hk]
    simp [groupBytes]
  | cons g1 gs ih =>
    intro g fuel ip tail hg hgs hf hl
    obtain ⟨fuel, rfl⟩ : ∃ f, fuel = f + 1 := ⟨fuel - 1, by omega⟩
    simp only [List.length_cons] at hl hf
    have hlt : ip.length < 16 := by omega
    obtain ⟨d, t, hd, hcons⟩ := appendHex_cons g1 (hgs g1 (List.mem_cons_self _ _))
    obtain ⟨k, hk, hs⟩ := scanHex_appendHex g hg
      (':' :: (appendHex g1 ++ (colonJoin gs ++ ':' :: ':' :: tail)))
      (by simp [hexVal_colon])
    have hih := ih g1 fuel (ip ++ [g / 256 % 256, g % 256]) tail (hgs g1 (List.mem_cons_self _ _))
      (fun x hx => hgs x (List.mem_cons_of_mem _ hx)) (by omega)
      (by simp only [List.length_append, List.length_cons, List.length_nil]; omega)
    simp only [colonJoin, List.cons_append, List.append_assoc, parseIPv6Loop, hs, hlt,
      not_true_eq_false, if_false, hk]
    rw [hcons] at hih ⊢
    simp only [List.cons_append] at hih ⊢
    simp only [List.length_append, List.length_cons, List.length_nil] at hih
    have e1 : fuel + 1 - (gs.length + 1 + 1) = fuel - (gs.length + 1) := by omega
    have e2 : ip.length + 2 * (gs.length + 1 + 1) = ip.length + (0 + 1 + 1) + 2 * (gs.length + 1) := by
      omega
    simp [hexDigit_ne_colon d hd, hih, groupBytes, e1, e2]

theorem zeroRunEnd_spec (x : List Nat) : ∀ (fuel j : Nat),
    j ≤ zeroRunEnd x fuel j ∧ (j ≤ 8 → zeroRunEnd x fuel j ≤ 8) ∧
    ∀ k, j ≤ k → k < zeroRunEnd x fuel j → v6u16 x k = 0 := by
  intro fuel
  induction fuel with
  | zero =>
    intro j
    simp only [zeroRunEnd]
    exact ⟨le_refl _, fun h => h, fun k h1 h2 => by omega⟩
  | succ f ih =>
    intro j
    simp only [zeroRunEnd]
    split_ifs with h
    · obtain ⟨h1, h2, h3⟩ := ih (j + 1)
      refine ⟨by omega, fun _ => h2 (by omega), ?_⟩
      intro k hk1 hk2
      by_cases hkj : k = j
      · subst hkj; exact h.2
      · exact h3 k (by omega) hk2
    · exact ⟨le_refl _, fun h => h, fun k h1 h2 => by omega⟩

theorem zeroRunStep_ok (x : List Nat) (z : Nat × Nat) (i : Nat) (hi : i < 8)
    (hz : ZeroRunOK x z) : ZeroRunOK x (zeroRunStep x z i) := by
  unfold zeroRunStep
  split_ifs with h
  · obtain ⟨h1, h2, h3⟩ := zeroRunEnd_spec x 8 i
    right
    exact ⟨by simp only; omega, h2 (by omega), h3⟩
  · exact hz

theorem zeroRun_ok (x : List Nat) : ZeroRunOK x (zeroRun x) := by
  have key : ∀ (l : List Nat) (z : Nat × Nat), (∀ i ∈ l, i < 8) → ZeroRunOK x z →
      ZeroRunOK x (l.foldl (zeroRunStep x) z) := by
    intro l
    induction l with
    | nil => intro z _ hz; exact hz
    | cons a l ih =>
      intro z hl hz
      exact ih _ (fun i hi => hl i (List.mem_cons_of_mem _ hi))
        (zeroRunStep_ok x z a (hl a (List.mem_cons_self _ _)) hz)
  exact key _ _ (fun i hi => List.mem_range.1 hi) (Or.inl rfl)

theorem appendTo6Loop_plain (x : List Nat) (zs ze : Nat) : ∀ (n i fuel : Nat),
    (zs < i ∨ 8 ≤ zs) → 1 ≤ i → i + n = 8 → n ≤ fuel →
    appendTo6Loop x zs ze fuel i = colonJoin ((List.range' i n).map (v6u16 x)) := by
  intro n
  induction n with
  | zero =>
    intro i fuel _ _ hi _
    cases fuel with
    | zero => simp [appendTo6Loop, colonJoin]
    | succ f =>
      have : ¬ i < 8 := by omega
      simp [appendTo6Loop, colonJoin, this]
  | succ n ih =>
    intro i fuel hz h1 hi hf
    obtain ⟨f, rfl⟩ : ∃ f, fuel = f + 1 := ⟨fuel - 1, by omega⟩
    have h8 : i < 8 := by omega
    have hne : i ≠ zs := by omega
    have hpos : i > 0 := by omega
    simp only [appendTo6Loop, h8, not_true_eq_false, if_false, hne, hpos, if_true,
      List.range'_succ, List.map_cons, colonJoin, List.cons_append, List.nil_append]
    rw [ih (i + 1) f (by omega) (by omega) (by omega) (by omega)]

theorem appendTo6Loop_run (x : List Nat) (zs ze : Nat) (hzs : zs + 2 ≤ ze) (hze : ze ≤ 8) :
    ∀ (k i fuel : Nat), i + k = zs → k + 1 + (8 - ze) ≤ fuel → (1 ≤ i ∨ k = 0) →
    appendTo6Loop x zs ze fuel i =
      colonJoin ((List.range' i k).map (v6u16 x)) ++ ':' :: ':' :: afterRun x ze := by
  intro k
  induction k with
  | zero =>
    intro i fuel hi hf _
    obtain ⟨f, rfl⟩ : ∃ f, fuel = f + 1 := ⟨fuel - 1, by omega⟩
    have he : i = zs := by omega
    subst he
    have h8 : i < 8 := by omega
    simp only [appendTo6Loop, h8, not_true_eq_false, if_false, if_true, List.range'_zero,
      List.map_nil, colonJoin, List.nil_append, afterRun]
    by_cases h : ze ≥ 8
    · simp [h]
    · simp only [h, if_false]
      rw [appendTo6Loop_plain x i ze (7 - ze) (ze + 1) f (by omega) (by omega) (by omega)
        (by omega)]
  | succ k ih =>
    intro i fuel hi hf h1
    obtain ⟨f, rfl⟩ : ∃ f, fuel = f + 1 := ⟨fuel - 1, by omega⟩
    have h8 : i < 8 := by omega
    have hne : i ≠ zs := by omega
    have hpos : i > 0 := by omega
    simp only [appendTo6Loop, h8, not_true_eq_false, if_false, hne, hpos, if_true,
      List.range'_succ, List.map_cons, colonJoin, List.cons_append, List.nil_append,
      List.append_assoc]
    rw [ih (i + 1) f (by omega) (by omega) (by omega)]

theorem appendTo6Loop_first (x : List Nat) (zs ze : Nat) (h : zs ≠ 0) :
    appendTo6Loop x zs ze 8 0 = appendHex (v6u16 x 0) ++ appendTo6Loop x zs ze 7 1 := by
  have hne : ¬ (0 = zs) := fun e => h e.symm
  rw [appendTo6Loop]
  simp [hne]

/-- Text of a 16-byte address, by the shape of its zero run. -/
theorem string6_eq (x : List Nat) :
    (zeroRun x = (255, 255) ∧
      string6 x = appendHex (v6u16 x 0) ++ colonJoin ((List.range' 1 7).map (v6u16 x))) ∨
    ((zeroRun x).1 = 0 ∧ string6 x = ':' :: ':' :: afterRun x (zeroRun x).2) ∨
    (0 < (zeroRun x).1 ∧ (zeroRun x).1 < 8 ∧
      string6 x = appendHex (v6u16 x 0) ++
        (colonJoin ((List.range' 1 ((zeroRun x).1 - 1)).map (v6u16 x)) ++
          ':' :: ':' :: afterRun x (zeroRun x).2)) := by
  rcases zeroRun_ok x with h | ⟨h1, h2, _⟩
  · left
    refine ⟨h, ?_⟩
    rw [string6, h, appendTo6Loop_first x 255 255 (by omega),
      appendTo6Loop_plain x 255 255 7 1 7 (by omega) (by omega) (by omega) (by omega)]
  · right
    by_cases h0 : (zeroRun x).1 = 0
    · left
      refine ⟨h0, ?_⟩
      rw [string6, appendTo6Loop_run x _ _ h1 h2 0 0 8 (by omega) (by omega) (by omega)]
      simp [colonJoin]
    · right
      refine ⟨by omega, by omega, ?_⟩
      rw [string6, appendTo6Loop_first x _ _ h0,
        appendTo6Loop_run x _ _ h1 h2 ((zeroRun x).1 - 1) 1 7 (by omega) (by omega) (by omega)]

theorem getD_lt (x : List Nat) (hb : ∀ b ∈ x, b < 256) (i : Nat) : x.getD i 0 < 256 := by
  by_cases h : i < x.length
  · rw [List.getD_eq_getElem _ _ h]
    exact hb _ (List.getElem_mem _)
  · rw [List.getD_eq_default _ _ (by omega)]
    omega

theorem v6u16_lt (x : List Nat) (hb : ∀ b ∈ x, b < 256) (k : Nat) : v6u16 x k < 65536 := by
  have h1 := getD_lt x hb (2 * k)
  have h2 := getD_lt x hb (2 * k + 1)
  unfold v6u16
  omega

theorem groupBytes_length (gs : List Nat) : (groupBytes gs).length = 2 * gs.length := by
  induction gs with
  | nil => rfl
  | cons g gs ih => simp only [groupBytes, List.length_cons, ih]; omega

theorem groupBytes_range (x : List Nat) (hb : ∀ b ∈ x, b < 256) : ∀ (n a : Nat),
    2 * (a + n) ≤ x.length →
    groupBytes ((List.range' a n).map (v6u16 x)) = (x.drop (2 * a)).take (2 * n) := by
  intro n
  induction n with
  | zero => intro a _; simp [groupBytes]
  | succ n ih =>
    intro a ha
    have h0 : 2 * a < x.length := by omega
    have h1 : 2 * a + 1 < x.length := by omega
    have b0 : x[2 * a] < 256 := hb _ (List.getElem_mem _)
    have b1 : x[2 * a + 1] < 256 := hb _ (List.getElem_mem _)
    rw [List.range'_succ, List.map_cons, groupBytes, ih (a + 1) (by omega),
      List.drop_eq_getElem_cons h0, List.drop_eq_getElem_cons h1]
    have e : 2 * (n + 1) = 2 * n + 1 + 1 := by omega
    have e2 : 2 * (a + 1) = 2 * a + 1 + 1 := by omega
    rw [e, e2, List.take_succ_cons, List.take_succ_cons]
    unfold v6u16
    rw [List.getD_eq_getElem _ _ h0, List.getD_eq_getElem _ _ h1]
    congr 1
    · omega
    · congr 1
      omega

theorem groupBytes_zero (x : List Nat) : ∀ (n a : Nat),
    (∀ k, a ≤ k → k < a + n → v6u16 x k = 0) →
    groupBytes ((List.range' a n).map (v6u16 x)) = List.replicate (2 * n) 0 := by
  intro n
  induction n with
  | zero => intro a _; simp [groupBytes]
  | succ n ih =>
    intro a h
    have e : 2 * (n + 1) = 2 * n + 1 + 1 := by omega
    rw [List.range'_succ, List.map_cons, groupBytes, ih (a + 1) (fun k h1 h2 => h k (by omega) (by omega)),
      h a (le_refl _) (by omega), e, List.replicate_succ, List.replicate_succ]

/-- The bytes before a run of zero groups, the zero bytes of the run and the bytes
after it make up the address. -/
theorem take_zeros_drop (x : List Nat) (hl : x.length = 16) (hb : ∀ b ∈ x, b < 256)
    (zs ze : Nat) (h1 : zs ≤ ze) (h2 : ze ≤ 8)
    (h3 : ∀ k, zs ≤ k → k < ze → v6u16 x k = 0) :
    x.take (2 * zs) ++ List.replicate (2 * (ze - zs)) 0 ++ x.drop (2 * ze) = x := by
  have hz := groupBytes_zero x (ze - zs) zs (fun k a b => h3 k a (by omega))
  rw [groupBytes_range x hb (ze - zs) zs (by omega)] at hz
  rw [← hz]
  have e : 2 * ze = 2 * zs + 2 * (ze - zs) := by omega
  rw [e, ← List.take_add, List.take_append_drop]

theorem hexDigit_plain : ∀ d < 16, hexDigit d ≠ '/' ∧ hexDigit d ≠ '%' ∧ hexDigit d ≠ '.' ∧
    jsonEscape (hexDigit d) = [hexDigit d] := by decide

theorem appendHex_chars (g : Nat) (hg : g < 65536) :
    ∀ c ∈ appendHex g, ∃ d, d < 16 ∧ c = hexDigit d := by
  intro c hc
  unfold appendHex at hc
  simp only [List.mem_append, List.mem_singleton] at hc
  rcases hc with ((hc | hc) | hc) | hc
  · split_ifs at hc
    · simp only [List.mem_singleton] at hc; exact ⟨_, by omega, hc⟩
    · simp at hc
  · split_ifs at hc
    · simp only [List.mem_singleton] at hc; exact ⟨_, by omega, hc⟩
    · simp at hc
  · split_ifs at hc
    · simp only [List.mem_singleton] at hc; exact ⟨_, by omega, hc⟩
    · simp at hc
  · exact ⟨_, by omega, hc⟩

theorem appendDecimal_chars (b : Nat) (hb : b < 256) :
    ∀ c ∈ appendDecimal b, ∃ d, d < 10 ∧ c = hexDigit d := by
  intro c hc
  unfold appendDecimal at hc
  simp only [List.mem_append, List.mem_singleton] at hc
  rcases hc with (hc | hc) | hc
  · split_ifs at hc
    · simp only [List.mem_singleton] at hc; exact ⟨_, by omega, hc⟩
    · simp at hc
  · split_ifs at hc
    · simp only [List.mem_singleton] at hc; exact ⟨_, by omega, hc⟩
    · simp at hc
  · exact ⟨_, by omega, hc⟩

theorem colonJoin_chars (gs : List Nat) (hg : ∀ g ∈ gs, g < 65536) :
    ∀ c ∈ colonJoin gs, c = ':' ∨ ∃ d, d < 16 ∧ c = hexDigit d := by
  induction gs with
  | nil => intro c hc; simp [colonJoin] at hc
  | cons g gs ih =>
    intro c hc
    simp only [colonJoin, List.mem_cons, List.mem_append] at hc
    rcases hc with rfl | hc | hc
    · exact Or.inl rfl
    · exact Or.inr (appendHex_chars g (hg g (List.mem_cons_self _ _)) c hc)
    · exact ih (fun g' h => hg g' (List.mem_cons_of_mem _ h)) c hc

theorem map_v6u16_lt (x : List Nat) (hb : ∀ b ∈ x, b < 256) (l : List Nat) :
    ∀ g ∈ l.map (v6u16 x), g < 65536 := by
  intro g hg
  obtain ⟨k, _, rfl⟩ := List.mem_map.1 hg
  exact v6u16_lt x hb k

theorem afterRun_chars (x : List Nat) (hb : ∀ b ∈ x, b < 256) (ze : Nat) :
    ∀ c ∈ afterRun x ze, c = ':' ∨ ∃ d, d < 16 ∧ c = hexDigit d := by
  intro c hc
  unfold afterRun at hc
  split_ifs at hc
  · simp at hc
  · rcases List.mem_append.1 hc with hc | hc
    · exact Or.inr (appendHex_chars _ (v6u16_lt x hb _) c hc)
    · exact colonJoin_chars _ (map_v6u16_lt x hb _) c hc

theorem string6_chars (x : List Nat) (hb : ∀ b ∈ x, b < 256) :
    (∀ c ∈ string6 x, c = ':' ∨ ∃ d, d < 16 ∧ c = hexDigit d) ∧ ':' ∈ string6 x := by
  have hx : ∀ g, ∀ c ∈ appendHex (v6u16 x g), c = ':' ∨ ∃ d, d < 16 ∧ c = hexDigit d :=
    fun g c hc => Or.inr (appendHex_chars _ (v6u16_lt x hb _) c hc)
  rcases string6_eq x with ⟨_, hs⟩ | ⟨_, hs⟩ | ⟨_, _, hs⟩
  · rw [hs]
    constructor
    · intro c hc
      rcases List.mem_append.1 hc with hc | hc
      · exact hx _ c hc
      · exact colonJoin_chars _ (map_v6u16_lt x hb _) c hc
    · simp [List.range'_succ, colonJoin]
  · rw [hs]
    constructor
    · intro c hc
      simp only [List.mem_cons] at hc
      rcases hc with rfl | rfl | hc
      · exact Or.inl rfl
      · exact Or.inl rfl
      · exact afterRun_chars x hb _ c hc
    · simp
  · rw [hs]
    constructor
    · intro c hc
      simp only [List.mem_append, List.mem_cons] at hc
      rcases hc with hc | hc | rfl | rfl | hc
      · exact hx _ c hc
      · exact colonJoin_chars _ (map_v6u16_lt x hb _) c hc
      · exact Or.inl rfl
      · exact Or.inl rfl
      · exact afterRun_chars x hb _ c hc
    · simp

theorem cutByte_none (p : Char) (s : List Char) (h : ∀ c ∈ s, c ≠ p) : cutByte p s = none := by
  induction s with
  | nil => rfl
  | cons c cs ih =>
    have h1 : c ≠ p := h c (List.mem_cons_self _ _)
    simp [cutByte, h1, ih (fun c' hc' => h c' (List.mem_cons_of_mem _ hc'))]

theorem cutByte_append (p : Char) (s t : List Char) (h : ∀ c ∈ s, c ≠ p) :
    cutByte p (s ++ p :: t) = some (s, t) := by
  induction s with
  | nil => simp [cutByte]
  | cons c cs ih =>
    have h1 : c ≠ p := h c (List.mem_cons_self _ _)
    simp [cutByte, h1, ih (fun c' hc' => h c' (List.mem_cons_of_mem _ hc'))]

theorem parseAddrScan_colon (whole s : List Char) (h : ∀ c ∈ s, c ≠ '.' ∧ c ≠ '%')
    (hc : ':' ∈ s) : parseAddrScan whole s = parseIPv6 whole := by
  induction s with
  | nil => simp at hc
  | cons c cs ih =>
    have h1 := h c (List.mem_cons_self _ _)
    by_cases hcc : c = ':'
    · simp [parseAddrScan, hcc]
    · have hmem : ':' ∈ cs := by
        rcases List.mem_cons.1 hc with e | e
        · exact absurd e.symm hcc
        · exact e
      simp [parseAddrScan, h1.1, h1.2, hcc, ih (fun c' hc' => h c' (List.mem_cons_of_mem _ hc')) hmem]

theorem parseAddrScan_dot (whole s t : List Char) (h : ∀ c ∈ s, c ≠ '.' ∧ c ≠ ':' ∧ c ≠ '%') :
    parseAddrScan whole (s ++ '.' :: t) = parseIPv4 whole := by
  induction s with
  | nil => simp [parseAddrScan]
  | cons c cs ih =>
    have h1 := h c (List.mem_cons_self _ _)
    simp [parseAddrScan, h1.1, h1.2.1, h1.2.2, ih (fun c' hc' => h c' (List.mem_cons_of_mem _ hc'))]

theorem take_two_ne (g : Nat) (hg : g < 65536) (r : List Char) :
    ¬ ((appendHex g ++ r).take 2 = [':', ':']) := by
  obtain ⟨d, t, hd, hcons⟩ := appendHex_cons g hg
  rw [hcons]
  intro h
  simp only [List.cons_append, List.take_succ_cons, List.cons.injEq] at h
  exact hexDigit_ne_colon d hd h.1

theorem afterRun_ne_nil (x : List Nat) (hb : ∀ b ∈ x, b < 256) (ze : Nat) (h : ze < 8) :
    afterRun x ze ≠ [] := by
  obtain ⟨d, t, _, hcons⟩ := appendHex_cons (v6u16 x ze) (v6u16_lt x hb ze)
  have : ¬ ze ≥ 8 := by omega
  simp [afterRun, this, hcons]

/-- Parsing the text after a run of zero groups stores the groups that follow it. -/
theorem parseIPv6Loop_afterRun (x : List Nat) (hl : x.length = 16) (hb : ∀ b ∈ x, b < 256)
    (ze fuel : Nat) (ip : List Nat) (e : Option Nat) (h : ze < 8) (hf : 8 - ze ≤ fuel)
    (hip : ip.length + 2 * (8 - ze) ≤ 16) :
    parseIPv6Loop fuel (afterRun x ze) ip e = some ([], ip ++ x.drop (2 * ze), e) := by
  have h8 : ¬ ze ≥ 8 := by omega
  have hlen : ((List.range' (ze + 1) (7 - ze)).map (v6u16 x)).length = 7 - ze := by simp
  rw [afterRun, if_neg h8, parseIPv6Loop_groups _ _ fuel ip e (v6u16_lt x hb ze)
    (map_v6u16_lt x hb _) (by rw [hlen]; omega) (by rw [hlen]; omega)]
  have e1 : v6u16 x ze :: (List.range' (ze + 1) (7 - ze)).map (v6u16 x) =
      (List.range' ze (8 - ze)).map (v6u16 x) := by
    have : 8 - ze = (7 - ze) + 1 := by omega
    rw [this, List.range'_succ, List.map_cons]
  rw [e1, groupBytes_range x hb (8 - ze) ze (by omega)]
  have e2 : (x.drop (2 * ze)).take (2 * (8 - ze)) = x.drop (2 * ze) := by
    apply List.take_of_length_le
    simp only [List.length_drop]; omega
  rw [e2]

theorem parseIPv6_string6 (x : List Nat) (hl : x.length = 16) (hb : ∀ b ∈ x, b < 256) :
    parseIPv6 (string6 x) = some (Addr.v6 x []) := by
  have hcut : cutByte '%' (string6 x) = none := by
    apply cutByte_none
    intro c hc
    rcases (string6_chars x hb).1 c hc with rfl | ⟨d, hd, rfl⟩
    · decide
    · exact (hexDigit_plain d hd).2.1
  simp only [parseIPv6, hcut]
  rcases string6_eq x with ⟨hz, hs⟩ | ⟨h0, hs⟩ | ⟨h0, h8, hs⟩
  · -- no run of zero groups
    have hlen : ((List.range' 1 7).map (v6u16 x)).length = 7 := by simp
    rw [hs, if_neg (take_two_ne _ (v6u16_lt x hb 0) _),
      parseIPv6Loop_groups _ _ 8 [] none (v6u16_lt x hb 0) (map_v6u16_lt x hb _)
        (by rw [hlen]) (by rw [hlen]; simp)]
    have e1 : v6u16 x 0 :: (List.range' 1 7).map (v6u16 x) =
        (List.range' 0 8).map (v6u16 x) := rfl
    rw [e1, groupBytes_range x hb 8 0 (by omega)]
    have e2 : (x.drop (2 * 0)).take (2 * 8) = x := by
      simp only [Nat.mul_zero, List.drop_zero]
      exact List.take_of_length_le (by omega)
    rw [e2]
    simp [parseIPv6Finish, hl]
  · -- the run starts the address
    rcases zeroRun_ok x with hz | ⟨z1, z2, z3⟩
    · rw [hz] at h0; simp at h0
    rw [h0] at z1 z3
    have hx := take_zeros_drop x hl hb 0 (zeroRun x).2 (by omega) z2 z3
    simp only [Nat.mul_zero, List.take_zero, List.nil_append, Nat.sub_zero] at hx
    rw [hs]
    simp only [List.take_succ_cons, List.take_zero, if_true, List.drop_succ_cons, List.drop_zero]
    by_cases hze : (zeroRun x).2 = 8
    · have ha : afterRun x (zeroRun x).2 = [] := by simp [afterRun, hze]
      rw [ha, if_pos rfl]
      rw [hze] at hx
      have hd : x.drop (2 * 8) = [] := List.drop_of_length_le (by omega)
      rw [hd, List.append_nil] at hx
      rw [← hx]
    · have hlt : (zeroRun x).2 < 8 := by omega
      rw [if_neg (afterRun_ne_nil x hb _ hlt),
        parseIPv6Loop_afterRun x hl hb _ 8 [] (some 0) hlt (by omega)
          (by simp only [List.length_nil]; omega)]
      have hdl : (x.drop (2 * (zeroRun x).2)).length < 16 := by
        simp only [List.length_drop]; omega
      have hdl2 : 16 - (x.drop (2 * (zeroRun x).2)).length = 2 * (zeroRun x).2 := by
        simp only [List.length_drop]; omega
      simp only [parseIPv6Finish, List.nil_append, ne_eq, not_true_eq_false, if_false, hdl,
        if_true, List.take_zero, List.drop_zero, hdl2, hx]
  · -- groups come before the run
    rcases zeroRun_ok x with hz | ⟨z1, z2, z3⟩
    · rw [hz] at h8; simp at h8
    have hx := take_zeros_drop x hl hb (zeroRun x).1 (zeroRun x).2 (by omega) z2 z3
    have hlen : ((List.range' 1 ((zeroRun x).1 - 1)).map (v6u16 x)).length =
        (zeroRun x).1 - 1 := by simp
    have hpre : groupBytes (v6u16 x 0 :: (List.range' 1 ((zeroRun x).1 - 1)).map (v6u16 x)) =
        x.take (2 * (zeroRun x).1) := by
      have e1 : v6u16 x 0 :: (List.range' 1 ((zeroRun x).1 - 1)).map (v6u16 x) =
          (List.range' 0 (zeroRun x).1).map (v6u16 x) := by
        have : (zeroRun x).1 = ((zeroRun x).1 - 1) + 1 := by omega
        conv_rhs => rw [this, List.range'_succ, List.map_cons]
      rw [e1, groupBytes_range x hb _ 0 (by omega)]
      simp
    rw [hs, if_neg (take_two_ne _ (v6u16_lt x hb 0) _),
      parseIPv6Loop_groups_ellipsis _ _ 8 [] _ (v6u16_lt x hb 0) (map_v6u16_lt x hb _)
        (by rw [hlen]; omega) (by rw [hlen]; simp; omega), hpre, hlen]
    have htl : (x.take (2 * (zeroRun x).1)).length = 2 * (zeroRun x).1 := by
      rw [List.length_take]; omega
    have he : ([] : List Nat).length + 2 * ((zeroRun x).1 - 1 + 1) = 2 * (zeroRun x).1 := by
      simp only [List.length_nil]; omega
    rw [he, List.nil_append]
    by_cases hze : (zeroRun x).2 = 8
    · have ha : afterRun x (zeroRun x).2 = [] := by simp [afterRun, hze]
      rw [ha, if_pos rfl]
      rw [hze] at hx
      have hd : x.drop (2 * 8) = [] := List.drop_of_length_le (by omega)
      rw [hd, List.append_nil] at hx
      have hlt : (x.take (2 * (zeroRun x).1)).length < 16 := by omega
      have e16 : 16 - (x.take (2 * (zeroRun x).1)).length = 2 * (8 - (zeroRun x).1) := by omega
      simp only [parseIPv6Finish, ne_eq, not_true_eq_false, if_false, hlt, if_true, e16]
      rw [List.take_of_length_le (by omega), List.drop_of_length_le (by omega), List.append_nil,
        hx]
    · have hlt : (zeroRun x).2 < 8 := by omega
      rw [if_neg (afterRun_ne_nil x hb _ hlt),
        parseIPv6Loop_afterRun x hl hb _ _ _ _ hlt (by omega) (by rw [htl]; omega)]
      have hlt2 : (x.take (2 * (zeroRun x).1) ++ x.drop (2 * (zeroRun x).2)).length < 16 := by
        simp only [List.length_append, htl, List.length_drop]; omega
      have e16 : 16 - (x.take (2 * (zeroRun x).1) ++ x.drop (2 * (zeroRun x).2)).length =
          2 * ((zeroRun x).2 - (zeroRun x).1) := by
        simp only [List.length_append, htl, List.length_drop]; omega
      simp only [parseIPv6Finish, ne_eq, not_true_eq_false, if_false, hlt2, if_true, e16]
      rw [List.take_left' htl, List.drop_left' htl, hx]

theorem bytes_append_two (ip : List Nat) (acc : Nat) (h : ∀ b ∈ ip, b < 256) :
    ∀ b ∈ ip ++ [acc / 256 % 256, acc % 256], b < 256 := by
  intro b hb
  simp only [List.mem_append, List.mem_cons, List.mem_singleton, List.not_mem_nil, or_false] at hb
  rcases hb with hb | rfl | rfl
  · exact h b hb
  · omega
  · omega

theorem parseIPv6Loop_inv : ∀ (fuel : Nat) (s : List Char) (ip : List Nat) (e : Option Nat)
    (s1 : List Char) (ip1 : List Nat) (e1 : Option Nat),
    ip.length % 2 = 0 → ip.length ≤ 16 → (∀ b ∈ ip, b < 256) →
    parseIPv6Loop fuel s ip e = some (s1, ip1, e1) →
    ip1.length % 2 = 0 ∧ ip1.length ≤ 16 ∧ ∀ b ∈ ip1, b < 256 := by
  intro fuel
  induction fuel with
  | zero =>
    intro s ip e s1 ip1 e1 h2 h16 hb h
    simp only [parseIPv6Loop, Option.some.injEq, Prod.mk.injEq] at h
    obtain ⟨_, rfl, _⟩ := h
    exact ⟨h2, h16, hb⟩
  | succ f ih =>
    intro s ip e s1 ip1 e1 h2 h16 hb h
    have hlen2 : (ip ++ [0, 0]).length = ip.length + 2 := by simp
    have step : ∀ acc : Nat, (ip ++ [acc / 256 % 256, acc % 256]).length % 2 = 0 ∧
        (ip.length < 16 → (ip ++ [acc / 256 % 256, acc % 256]).length ≤ 16) := by
      intro acc
      simp only [List.length_append, List.length_cons, List.length_nil]
      omega
    have fin : ∀ acc : Nat, ([] : List Char) = s1 ∧ ip ++ [acc / 256 % 256, acc % 256] = ip1 →
        ip.length < 16 → ip1.length % 2 = 0 ∧ ip1.length ≤ 16 ∧ ∀ b ∈ ip1, b < 256 := by
      rintro acc ⟨_, rfl⟩ hlt
      exact ⟨(step acc).1, (step acc).2 hlt, bytes_append_two ip acc hb⟩
    unfold parseIPv6Loop at h
    by_cases hlt : ip.length < 16
    swap
    · rw [if_pos hlt] at h
      simp only [Option.some.injEq, Prod.mk.injEq] at h
      obtain ⟨_, rfl, _⟩ := h
      exact ⟨h2, h16, hb⟩
    rw [if_neg (not_not.2 hlt)] at h
    cases hs : scanHex s 0 0 with
    | none => rw [hs] at h; simp at h
    | some r =>
      obtain ⟨acc, off, rest⟩ := r
      rw [hs] at h
      simp only at h
      by_cases c1 : off = 0
      · rw [if_pos c1] at h; simp at h
      rw [if_neg c1] at h
      by_cases c2 : rest.head? = some '.'
      · rw [if_pos c2] at h
        by_cases c3 : e = none ∧ ip.length ≠ 12
        · rw [if_pos c3] at h; simp at h
        rw [if_neg c3] at h
        by_cases c4 : ip.length + 4 > 16
        · rw [if_pos c4] at h; simp at h
        rw [if_neg c4] at h
        cases hf : parseIPv4Fields s with
        | none => rw [hf] at h; simp at h
        | some fields =>
          rw [hf] at h
          simp only [Option.some.injEq, Prod.mk.injEq] at h
          obtain ⟨_, rfl, _⟩ := h
          obtain ⟨f4, fb⟩ := parseIPv4Fields_inv _ _ hf
          refine ⟨?_, ?_, ?_⟩
          · simp only [List.length_append, f4]; omega
          · simp only [List.length_append, f4]; omega
          · intro b hb1
            rcases List.mem_append.1 hb1 with hb1 | hb1
            · exact hb b hb1
            · exact fb b hb1
      rw [if_neg c2] at h
      cases rest with
      | nil =>
        simp only [Option.some.injEq, Prod.mk.injEq] at h
        exact fin acc ⟨h.1, h.2.1⟩ hlt
      | cons c rest1 =>
        simp only at h
        by_cases c5 : c ≠ ':'
        · rw [if_pos c5] at h; simp at h
        rw [if_neg c5] at h
        cases rest1 with
        | nil => simp at h
        | cons c6 rest2 =>
          simp only at h
          by_cases c7 : c6 = ':'
          · rw [if_pos c7] at h
            by_cases c8 : e.isSome = true
            · rw [if_pos c8] at h; simp at h
            rw [if_neg c8] at h
            by_cases c9 : rest2 = []
            · rw [if_pos c9] at h
              simp only [Option.some.injEq, Prod.mk.injEq] at h
              exact fin acc ⟨h.1, h.2.1⟩ hlt
            · rw [if_neg c9] at h
              exact ih _ _ _ _ _ _ (step acc).1 ((step acc).2 hlt)
                (bytes_append_two ip acc hb) h
          · rw [if_neg c7] at h
            exact ih _ _ _ _ _ _ (step acc).1 ((step acc).2 hlt)
              (bytes_append_two ip acc hb) h

theorem parseIPv6Finish_wf (zone : List Char) (r : Option (List Char × List Nat × Option Nat))
    (a : Addr) (hr : ∀ s1 ip1 e1, r = some (s1, ip1, e1) →
      ip1.length ≤ 16 ∧ ∀ b ∈ ip1, b < 256)
    (h : parseIPv6Finish zone r = some a) : a.WF := by
  cases r with
  | none => simp [parseIPv6Finish] at h
  | some t =>
    obtain ⟨s1, ip1, e1⟩ := t
    obtain ⟨h16, hb⟩ := hr s1 ip1 e1 rfl
    simp only [parseIPv6Finish] at h
    by_cases c1 : s1 ≠ []
    · rw [if_pos c1] at h; simp at h
    rw [if_neg c1] at h
    by_cases c2 : ip1.length < 16
    · rw [if_pos c2] at h
      cases e1 with
      | none => simp at h
      | some e =>
        simp only [Option.some.injEq] at h
        subst h
        refine ⟨?_, ?_⟩
        · simp only [List.length_append, List.length_take, List.length_replicate,
            List.length_drop]
          omega
        · intro b hb1
          simp only [List.mem_append, List.mem_replicate] at hb1
          rcases hb1 with (hb1 | hb1) | hb1
          · exact hb b (List.mem_of_mem_take hb1)
          · omega
          · exact hb b (List.mem_of_mem_drop hb1)
    · rw [if_neg c2] at h
      by_cases c3 : e1.isSome = true
      · rw [if_pos c3] at h; simp at h
      rw [if_neg c3] at h
      simp only [Option.some.injEq] at h
      subst h
      exact ⟨by omega, hb⟩

theorem parseIPv6_wf (s : List Char) (a : Addr) (h : parseIPv6 s = some a) : a.WF := by
  have hr : ∀ (t : List Char) (e : Option Nat) s1 ip1 e1,
      parseIPv6Loop 8 t [] e = some (s1, ip1, e1) → ip1.length ≤ 16 ∧ ∀ b ∈ ip1, b < 256 := by
    intro t e s1 ip1 e1 hh
    have := parseIPv6Loop_inv 8 t [] e s1 ip1 e1 rfl (by simp) (by simp) hh
    exact ⟨this.2.1, this.2.2⟩
  unfold parseIPv6 at h
  split at h
  · simp at h
  · rename_i s0 zone _
    by_cases c1 : s0.take 2 = [':', ':']
    · rw [if_pos c1] at h
      by_cases c2 : s0.drop 2 = []
      · rw [if_pos c2] at h
        simp only [Option.some.injEq] at h
        subst h
        refine ⟨by simp, ?_⟩
        intro b hb
        rw [List.mem_replicate] at hb
        omega
      · rw [if_neg c2] at h
        exact parseIPv6Finish_wf zone _ a (hr _ _) h
    · rw [if_neg c1] at h
      exact parseIPv6Finish_wf zone _ a (hr _ _) h

theorem ParseAddr_wf (s : List Char) (a : Addr) (h : ParseAddr s = some a) : a.WF := by
  have key : ∀ t : List Char, parseAddrScan s t = some a → a.WF := by
    intro t
    induction t with
    | nil => intro h; simp [parseAddrScan] at h
    | cons c cs ih =>
      intro h
      simp only [parseAddrScan] at h
      by_cases c1 : c = '.'
      · rw [if_pos c1] at h
        unfold parseIPv4 at h
        cases hf : parseIPv4Fields s with
        | none => rw [hf] at h; simp at h
        | some f =>
          rw [hf] at h
          simp only [Option.some.injEq] at h
          subst h
          exact parseIPv4Fields_inv _ _ hf
      rw [if_neg c1] at h
      by_cases c2 : c = ':'
      · rw [if_pos c2] at h
        exact parseIPv6_wf s a h
      rw [if_neg c2] at h
      by_cases c3 : c = '%'
      · rw [if_pos c3] at h; simp at h
      rw [if_neg c3] at h
      exact ih h
  exact key s h

theorem hexDigit_dec : ∀ d < 10, hexDigit d ≠ '.' ∧ hexDigit d ≠ ':' ∧ hexDigit d ≠ '%' ∧
    hexDigit d ≠ '/' := by decide

theorem uitoa_chars : ∀ n < 129, ∀ c ∈ uitoa n, ∃ d, d < 10 ∧ c = hexDigit d := by
  decide

theorem length_four (x : List Nat) (h : x.length = 4) : ∃ a b c d, x = [a, b, c, d] := by
  match x, h with
  | [a, b, c, d], _ => exact ⟨a, b, c, d, rfl⟩

theorem string4_chars (x : List Nat) (hl : x.length = 4) (hb : ∀ b ∈ x, b < 256) :
    ∀ c ∈ string4 x, c = '.' ∨ ∃ d, d < 10 ∧ c = hexDigit d := by
  obtain ⟨a, b, c, d, rfl⟩ := length_four x hl
  intro ch hc
  simp only [string4, List.getD_cons_zero, List.getD_cons_succ, List.mem_append,
    List.mem_cons] at hc
  have := appendDecimal_chars a (hb a (by simp))
  have := appendDecimal_chars b (hb b (by simp))
  have := appendDecimal_chars c (hb c (by simp))
  have := appendDecimal_chars d (hb d (by simp))
  aesop

theorem ParseAddr_string4 (x : List Nat) (hl : x.length = 4) (hb : ∀ b ∈ x, b < 256) :
    ParseAddr (string4 x) = some (Addr.v4 x) := by
  obtain ⟨a, b, c, d, rfl⟩ := length_four x hl
  have ha : a < 256 := hb a (by simp)
  have hs : string4 [a, b, c, d] = appendDecimal a ++
      '.' :: (appendDecimal b ++ '.' :: (appendDecimal c ++ '.' :: appendDecimal d)) := by
    simp [string4]
  unfold ParseAddr
  conv_lhs => arg 2; rw [hs]
  rw [parseAddrScan_dot _ _ _ (by
    intro ch hc
    obtain ⟨k, hk, rfl⟩ := appendDecimal_chars a ha ch hc
    exact ⟨(hexDigit_dec k hk).1, (hexDigit_dec k hk).2.1, (hexDigit_dec k hk).2.2.1⟩)]
  rw [parseIPv4, parseIPv4Fields_string4 a b c d ha (hb b (by simp)) (hb c (by simp))
    (hb d (by simp))]

theorem ParseAddr_string6 (x : List Nat) (hl : x.length = 16) (hb : ∀ b ∈ x, b < 256) :
    ParseAddr (string6 x) = some (Addr.v6 x []) := by
  unfold ParseAddr
  rw [parseAddrScan_colon _ _ (by
    intro c hc
    rcases (string6_chars x hb).1 c hc with rfl | ⟨d, hd, rfl⟩
    · decide
    · exact ⟨(hexDigit_plain d hd).2.2.1, (hexDigit_plain d hd).2.1⟩) (string6_chars x hb).2]
  exact parseIPv6_string6 x hl hb

/-- Re-parsing an address text followed by `/` and a prefix length. -/
theorem ParseCIDR_text (t : List Char) (a : Addr) (ones : Nat) (h1 : ∀ c ∈ t, c ≠ '/')
    (h2 : ParseAddr t = some a) (h3 : a.Zone = []) (h4 : ones ≤ a.BitLen) (h5 : ones < 129) :
    ParseCIDR (t ++ '/' :: uitoa ones) =
      some (a.As16, { IP := Mask a.As16 (CIDRMask ones a.BitLen),
                      Mask := CIDRMask ones a.BitLen }) := by
  unfold ParseCIDR
  rw [cutByte_append '/' t _ h1]
  simp only [h2, h3, dtoi_uitoa ones h5]
  simp [Nat.not_lt.2 h4]

theorem zipWith_land_idem : ∀ (ip m : List Nat),
    List.zipWith (· &&& ·) (List.zipWith (· &&& ·) ip m) m = List.zipWith (· &&& ·) ip m := by
  intro ip
  induction ip with
  | nil => intro m; simp
  | cons a ip ih =>
    intro m
    cases m with
    | nil => simp
    | cons b m =>
      simp only [List.zipWith_cons_cons, ih m, Nat.land_assoc, Nat.and_self]

theorem zipWith_land_lt : ∀ (ip m : List Nat), (∀ b ∈ ip, b < 256) →
    ∀ b ∈ List.zipWith (· &&& ·) ip m, b < 256 := by
  intro ip
  induction ip with
  | nil => intro m _ b hb; simp at hb
  | cons a ip ih =>
    intro m h b hb
    cases m with
    | nil => simp at hb
    | cons c m =>
      simp only [List.zipWith_cons_cons, List.mem_cons] at hb
      rcases hb with rfl | hb
      · exact lt_of_le_of_lt Nat.and_le_left (h a (List.mem_cons_self _ _))
      · exact ih m (fun b' hb' => h b' (List.mem_cons_of_mem _ hb')) b hb

theorem zipWith_land_getD_le : ∀ (ip m : List Nat) (k : Nat),
    (List.zipWith (· &&& ·) ip m).getD k 0 ≤ m.getD k 0 := by
  intro ip
  induction ip with
  | nil => intro m k; simp
  | cons a ip ih =>
    intro m k
    cases m with
    | nil => simp
    | cons c m =>
      cases k with
      | zero => simp only [List.zipWith_cons_cons, List.getD_cons_zero]; exact Nat.and_le_right
      | succ k => simp only [List.zipWith_cons_cons, List.getD_cons_succ]; exact ih m k

theorem Mask_same_length (ip m : List Nat) (h : ip.length = m.length) :
    Mask ip m = List.zipWith (· &&& ·) ip m := by
  have e1 : ¬ (m.length = 16 ∧ ip.length = 4 ∧ (m.take 12).all (· == 0xff) = true) := by
    intro hh; omega
  have e2 : ¬ (m.length = 4 ∧ ip.length = 16 ∧ ip.take 12 = v4InV6Prefix) := by
    intro hh; omega
  have e3 : ¬ (ip.length ≠ m.length) := fun hh => hh h
  simp only [Mask]
  rw [if_neg e1, if_neg e2, if_neg e3]

theorem Mask_v4 (f m : List Nat) (hf : f.length = 4) (hm : m.length = 4) :
    Mask (v4InV6Prefix ++ f) m = List.zipWith (· &&& ·) f m := by
  obtain ⟨a, b, c, d, rfl⟩ := length_four f hf
  unfold Mask
  have e1 : ¬ (m.length = 16 ∧ (v4InV6Prefix ++ [a, b, c, d]).length = 4 ∧
      (m.take 12).all (· == 0xff) = true) := by
    intro hh; omega
  simp only [e1, if_false, hm]
  simp [v4InV6Prefix, hm]

theorem To4_of_length_four (x : List Nat) (h : x.length = 4) : To4 x = x := by
  simp [To4, h]

theorem IPString_four (x : List Nat) (h : x.length = 4) : IPString x = string4 x := by
  have h0 : ¬ x.length = 0 := by omega
  have h1 : ¬ (x.length ≠ 4 ∧ x.length ≠ 16) := by omega
  rw [IPString, if_neg h0, if_neg h1, To4_of_length_four x h, if_pos h]

theorem nnm_four (x m : List Nat) (hx : x.length = 4) (hm : m.length = 4) :
    networkNumberAndMask { IP := x, Mask := m } = some (x, m) := by
  have hne : x ≠ [] := by intro h; rw [h] at hx; simp at hx
  simp [networkNumberAndMask, To4_of_length_four x hx, hne, hx, hm]

theorem zipWith_land_length (a b : List Nat) (h : a.length = b.length) :
    (List.zipWith (· &&& ·) a b).length = a.length := by
  simp [h]

/-- Key of an IPv4 network and what it re-parses to. -/
theorem key_roundtrip_v4 (x : List Nat) (ones : Nat) (hx : x.length = 4)
    (hb : ∀ b ∈ x, b < 256) (ho : ones ≤ 32)
    (hmask : List.zipWith (· &&& ·) x (CIDRMask ones 32) = x) :
    IPNetString (some { IP := x, Mask := CIDRMask ones 32 }) = string4 x ++ '/' :: uitoa ones ∧
    ParseCIDR (string4 x ++ '/' :: uitoa ones) =
      some (v4InV6Prefix ++ x, { IP := x, Mask := CIDRMask ones 32 }) := by
  have hm : (CIDRMask ones 32).length = 4 := CIDRMask_length_32 ones (by omega)
  constructor
  · simp only [IPNetString, nnm_four x _ hx hm, simpleMaskLength_CIDRMask_32 ones (by omega),
      IPString_four x hx]
  · have h1 : ∀ c ∈ string4 x, c ≠ '/' := by
      intro c hc
      rcases string4_chars x hx hb c hc with rfl | ⟨d, hd, rfl⟩
      · decide
      · exact (hexDigit_dec d hd).2.2.2
    have := ParseCIDR_text (string4 x) (Addr.v4 x) ones h1 (ParseAddr_string4 x hx hb) rfl
      (by simpa [Addr.BitLen] using ho) (by omega)
    rw [this]
    simp only [Addr.As16, Addr.BitLen, Mask_v4 x _ hx hm, hmask]

theorem ParseCIDR_some (s : List Char) (ip : List Nat) (n : IPNet)
    (h : ParseCIDR s = some (ip, n)) :
    ∃ (a : Addr) (ones : Nat), a.WF ∧ ones ≤ a.BitLen ∧ ip = a.As16 ∧
      n = { IP := Mask a.As16 (CIDRMask ones a.BitLen), Mask := CIDRMask ones a.BitLen } := by
  unfold ParseCIDR at h
  cases hc : cutByte '/' s with
  | none => rw [hc] at h; simp at h
  | some p =>
    obtain ⟨addr, mask⟩ := p
    rw [hc] at h
    simp only at h
    cases ha : ParseAddr addr with
    | none => rw [ha] at h; simp at h
    | some a =>
      rw [ha] at h
      simp only at h
      by_cases hz : a.Zone ≠ []
      · rw [if_pos hz] at h; simp at h
      rw [if_neg hz] at h
      cases hd : dtoi mask with
      | none => rw [hd] at h; simp at h
      | some r =>
        obtain ⟨ones, i⟩ := r
        rw [hd] at h
        simp only at h
        by_cases hi : i ≠ mask.length ∨ ones > a.BitLen
        · rw [if_pos hi] at h; simp at h
        rw [if_neg hi] at h
        simp only [Option.some.injEq, Prod.mk.injEq] at h
        exact ⟨a, ones, ParseAddr_wf addr a ha, by omega, h.1.symm, h.2.symm⟩


theorem nnm_Contains (n1 n : IPNet) (h : networkNumberAndMask n1 = networkNumberAndMask n)
    (a : List Nat) : Contains n1 a = Contains n a := by
  simp only [Contains, h]

theorem reparses_v4 (f : List Nat) (ones : Nat) (hf : f.length = 4) (hb : ∀ b ∈ f, b < 256)
    (ho : ones ≤ 32) :
    Reparses { IP := Mask (v4InV6Prefix ++ f) (CIDRMask ones 32), Mask := CIDRMask ones 32 } := by
  have hm : (CIDRMask ones 32).length = 4 := CIDRMask_length_32 ones (by omega)
  rw [Mask_v4 f _ hf hm]
  have hx : (List.zipWith (· &&& ·) f (CIDRMask ones 32)).length = 4 := by simp [hf, hm]
  obtain ⟨k1, k2⟩ := key_roundtrip_v4 _ ones hx (zipWith_land_lt f _ hb) ho
    (zipWith_land_idem f _)
  exact ⟨_, _, _, _, ones, by rw [k1, k2], nnm_four _ _ hx hm, nnm_four _ _ hx hm, rfl,
    simpleMaskLength_CIDRMask_32 ones (by omega), rfl, fun _ => rfl⟩

theorem reparses_v6 (ip : List Nat) (ones : Nat) (hl : ip.length = 16) (hb : ∀ b ∈ ip, b < 256)
    (ho : ones ≤ 128) :
    Reparses { IP := Mask ip (CIDRMask ones 128), Mask := CIDRMask ones 128 } := by
  have hm : (CIDRMask ones 128).length = 16 := CIDRMask_length_128 ones (by omega)
  rw [Mask_same_length ip _ (by rw [hl, hm])]
  have hxl : (List.zipWith (· &&& ·) ip (CIDRMask ones 128)).length = 16 := by simp [hl, hm]
  have hxb := zipWith_land_lt ip (CIDRMask ones 128) hb
  have hidem := zipWith_land_idem ip (CIDRMask ones 128)
  generalize hxdef : List.zipWith (· &&& ·) ip (CIDRMask ones 128) = x at hxl hxb hidem
  have hx11 : x.getD 11 0 ≤ (CIDRMask ones 128).getD 11 0 := by
    rw [← hxdef]; exact zipWith_land_getD_le _ _ _
  by_cases hpre : x.take 12 = v4InV6Prefix
  · -- the masked address is an IPv4-mapped one
    have hsplit : x = v4InV6Prefix ++ x.drop 12 := by
      conv_lhs => rw [← List.take_append_drop 12 x, hpre]
    have h255 : x.getD 11 0 = 255 := by
      rw [hsplit, List.getD_append _ _ _ _ (by simp [v4InV6Prefix])]
      rfl
    have h96 : 96 ≤ ones := by
      by_contra hlt
      have := CIDRMask_lt_96 ones (by omega)
      omega
    obtain ⟨hdrop, _⟩ := CIDRMask_drop ones (by omega) h96
    have hd4 : (x.drop 12).length = 4 := by simp [hxl]
    have hm4 : (CIDRMask (ones - 96) 32).length = 4 := CIDRMask_length_32 _ (by omega)
    have hto4 : To4 x = x.drop 12 := by
      simp [To4, hxl, hpre]
    have hne : x.drop 12 ≠ [] := by intro h; rw [h] at hd4; simp at hd4
    have hnn : networkNumberAndMask { IP := x, Mask := CIDRMask ones 128 } =
        some (x.drop 12, CIDRMask (ones - 96) 32) := by
      simp [networkNumberAndMask, hto4, hne, hm, hd4, hdrop]
    have hmask4 : List.zipWith (· &&& ·) (x.drop 12) (CIDRMask (ones - 96) 32) = x.drop 12 := by
      rw [← hdrop, ← List.drop_zipWith, hidem]
    obtain ⟨k1, k2⟩ := key_roundtrip_v4 (x.drop 12) (ones - 96) hd4
      (fun b hb' => hxb b (List.mem_of_mem_drop hb')) (by omega) hmask4
    have hkey : IPNetString (some { IP := x, Mask := CIDRMask ones 128 }) =
        string4 (x.drop 12) ++ '/' :: uitoa (ones - 96) := by
      simp only [IPNetString, hnn, simpleMaskLength_CIDRMask_32 (ones - 96) (by omega),
        IPString_four _ hd4]
    have hexact : To4 x = [] ∨ x.length = 4 →
        ({ IP := x.drop 12, Mask := CIDRMask (ones - 96) 32 } : IPNet) =
          { IP := x, Mask := CIDRMask ones 128 } := by
      rintro (h | h)
      · rw [hto4] at h; exact absurd h hne
      · omega
    exact ⟨_, _, _, _, ones - 96, by rw [hkey, k2], hnn, nnm_four _ _ hd4 hm4, rfl,
      simpleMaskLength_CIDRMask_32 _ (by omega), by rw [hkey, k1], hexact⟩
  · -- a proper IPv6 network
    have hto4 : To4 x = [] := by
      simp [To4, hxl, hpre]
    have hnn : networkNumberAndMask { IP := x, Mask := CIDRMask ones 128 } =
        some (x, CIDRMask ones 128) := by
      simp [networkNumberAndMask, hto4, hm, hxl]
    have hstr : IPString x = string6 x := by
      have h0 : ¬ x.length = 0 := by omega
      have h1 : ¬ (x.length ≠ 4 ∧ x.length ≠ 16) := by omega
      rw [IPString, if_neg h0, if_neg h1, hto4]
      simp
    have hkey : IPNetString (some { IP := x, Mask := CIDRMask ones 128 }) =
        string6 x ++ '/' :: uitoa ones := by
      simp only [IPNetString, hnn, simpleMaskLength_CIDRMask_128 ones (by omega), hstr]
    have h1 : ∀ c ∈ string6 x, c ≠ '/' := by
      intro c hc
      rcases (string6_chars x hxb).1 c hc with rfl | ⟨d, hd, rfl⟩
      · decide
      · exact (hexDigit_plain d hd).1
    have hparse := ParseCIDR_text (string6 x) (Addr.v6 x []) ones h1
      (ParseAddr_string6 x hxl hxb) rfl (by simpa [Addr.BitLen] using ho) (by omega)
    have hmx : Mask x (CIDRMask ones 128) = x := by
      rw [Mask_same_length x _ (by rw [hxl, hm]), hidem]
    simp only [Addr.As16, Addr.BitLen, hmx] at hparse
    exact ⟨_, _, _, _, ones, by rw [hkey, hparse], hnn, hnn, rfl,
      simpleMaskLength_CIDRMask_128 ones (by omega), rfl, fun _ => rfl⟩

theorem reparses_of_ParseCIDR (value : List Char) (ip : List Nat) (n : IPNet)
    (h : ParseCIDR value = some (ip, n)) : Reparses n := by
  obtain ⟨a, ones, hwf, ho, _, rfl⟩ := ParseCIDR_some value ip n h
  cases a with
  | v4 f => exact reparses_v4 f ones hwf.1 hwf.2 ho
  | v6 x zone => exact reparses_v6 x ones hwf.1 hwf.2 ho

theorem flatMap_jsonEscape (s : List Char) (h : ∀ c ∈ s, jsonEscape c = [c]) :
    s.flatMap jsonEscape = s := by
  induction s with
  | nil => rfl
  | cons c cs ih =>
    rw [List.flatMap_cons, h c (List.mem_cons_self _ _),
      ih (fun c' hc' => h c' (List.mem_cons_of_mem _ hc'))]
    rfl

theorem hexDigit_json : ∀ d < 16, jsonEscape (hexDigit d) = [hexDigit d] := by decide

/-- The text of a 16-byte address is not empty and needs no escape in JSON. -/
theorem IPString_plain (x : List Nat) (hl : x.length = 16) (hb : ∀ b ∈ x, b < 256) :
    IPString x ≠ [] ∧ ∀ c ∈ IPString x, jsonEscape c = [c] := by
  have h0 : ¬ x.length = 0 := by omega
  have h1 : ¬ (x.length ≠ 4 ∧ x.length ≠ 16) := by omega
  rw [IPString, if_neg h0, if_neg h1]
  by_cases h4 : (To4 x).length = 4
  · rw [if_pos h4]
    have hb4 : ∀ b ∈ To4 x, b < 256 := by
      intro b hb'
      unfold To4 at hb'
      split_ifs at hb'
      · exact hb b hb'
      · exact hb b (List.mem_of_mem_drop hb')
      · simp at hb'
    constructor
    · obtain ⟨a, b, c, d, e⟩ := length_four _ h4
      rw [e]
      simp [string4, appendDecimal]
    · intro c hc
      rcases string4_chars _ h4 hb4 c hc with rfl | ⟨d, hd, rfl⟩
      · decide
      · exact hexDigit_json d (by omega)
  · rw [if_neg h4]
    constructor
    · intro h
      have := (string6_chars x hb).2
      rw [h] at this
      simp at this
    · intro c hc
      rcases (string6_chars x hb).1 c hc with rfl | ⟨d, hd, rfl⟩
      · decide
      · exact hexDigit_json d hd

theorem ParseIP_wf (s : List Char) (realIP : List Nat) (h : ParseIP s = some realIP) :
    realIP.length = 16 ∧ ∀ b ∈ realIP, b < 256 := by
  unfold ParseIP at h
  cases ha : ParseAddr s with
  | none => rw [ha] at h; simp at h
  | some a =>
    rw [ha] at h
    simp only at h
    by_cases hz : a.Zone ≠ []
    · rw [if_pos hz] at h; simp at h
    rw [if_neg hz] at h
    simp only [Option.some.injEq] at h
    subst h
    have hwf := ParseAddr_wf s a ha
    cases a with
    | v4 f =>
      refine ⟨by simp [Addr.As16, v4InV6Prefix, hwf.1], ?_⟩
      intro b hb
      simp only [Addr.As16, List.mem_append] at hb
      rcases hb with hb | hb
      · simp only [v4InV6Prefix, List.mem_cons, List.mem_singleton, List.not_mem_nil,
          or_false] at hb
        omega
      · exact hwf.2 b hb
    | v6 x z => exact hwf

theorem jsonMarshalRealip_eq (realIP : List Nat) (hl : realIP.length = 16)
    (hb : ∀ b ∈ realIP, b < 256) :
    jsonMarshalRealip (IPString realIP) =
      "\x7b\"real_ip\":\"".toList ++ IPString realIP ++ "\"\x7d".toList := by
  obtain ⟨hne, hesc⟩ := IPString_plain realIP hl hb
  rw [jsonMarshalRealip, if_neg hne, jsonString, flatMap_jsonEscape _ hesc]
  simp

/-- One more round than `fuel` changes nothing once the rounds left can fill the
sixteen bytes: the eight rounds given to `parseIPv6Loop` by `parseIPv6` are enough. -/
theorem parseIPv6Loop_fuel : ∀ (fuel : Nat) (s : List Char) (ip : List Nat) (e : Option Nat),
    16 ≤ ip.length + 2 * fuel →
    parseIPv6Loop (fuel + 1) s ip e = parseIPv6Loop fuel s ip e := by
  intro fuel
  induction fuel with
  | zero =>
    intro s ip e h
    have : ¬ ip.length < 16 := by omega
    simp [parseIPv6Loop, this]
  | succ f ih =>
    intro s ip e h
    have hstep : ∀ (s1 : List Char) (acc : Nat) (e1 : Option Nat),
        parseIPv6Loop (f + 1) s1 (ip ++ [acc / 256 % 256, acc % 256]) e1 =
          parseIPv6Loop f s1 (ip ++ [acc / 256 % 256, acc % 256]) e1 := by
      intro s1 acc e1
      apply ih
      simp only [List.length_append, List.length_cons, List.length_nil]
      omega
    rw [parseIPv6Loop]
    conv_rhs => rw [parseIPv6Loop]
    simp only [hstep]

theorem parseIPv6Loop_eight (k : Nat) (s : List Char) (e : Option Nat) :
    parseIPv6Loop (8 + k) s [] e = parseIPv6Loop 8 s [] e := by
  induction k with
  | zero => rfl
  | succ k ih =>
    rw [← ih]
    exact parseIPv6Loop_fuel (8 + k) s [] e (by simp only [List.length_nil]; omega)

/-! ## Basic facts about the handlers -/

theorem foldl_insert_eq (f : List Char → List Char) (l : List (List Char))
    (s : Finset (List Char)) :
    l.foldl (fun m value => insert (f value) m) s = s ∪ (l.map f).toFinset := by
  induction l generalizing s with
  | nil => simp
  | cons a l ih =>
    simp only [List.foldl_cons, List.map_cons, List.toFinset_cons, ih]
    ext k
    simp only [Finset.mem_union, Finset.mem_insert, List.mem_toFinset]
    tauto

theorem updateIPNets_body_m (respBytes : List Char) (readErr : Bool) (ipnets : shmap) :
    (updateIPNets (Fetched.body respBytes readErr) ipnets).m =
      ((Split '\n' (TrimSpace respBytes)).map updateIPNets.key).toFinset := by
  simp [updateIPNets, foldl_insert_eq]

theorem getIPNets_ipnets_foldl (order : List (List Char)) (acc : Option (List (List Char)))
    (h : order ≠ []) :
    order.foldl (fun acc ipnet => some (acc.getD [] ++ [ipnet])) acc =
      some (acc.getD [] ++ order) := by
  induction order generalizing acc with
  | nil => exact absurd rfl h
  | cons a l ih =>
    cases l with
    | nil => simp
    | cons b l => simp [List.foldl_cons, ih (some (acc.getD [] ++ [a])) (by simp)]

theorem getIPNets_ipnets_of_ne_nil (order : List (List Char)) (h : order ≠ []) :
    getIPNets.ipnets order = some order := by
  simp [getIPNets.ipnets, getIPNets_ipnets_foldl order none h]

/-- When every key of the map parses, the scan of `checkIPNet` ends without a panic
and reports a match exactly when one of the stored networks contains the address. -/
theorem scan_of_all_keys_parse (realIP : List Nat) (order : List (List Char))
    (h : ∀ key ∈ order, ParseCIDR key ≠ none) :
    ∃ isMatch, checkIPNet.scan realIP order = some isMatch ∧
      (isMatch = true ↔
        ∃ key ∈ order, ∃ ip n, ParseCIDR key = some (ip, n) ∧ Contains n realIP = true) := by
  induction order with
  | nil => exact ⟨false, rfl, by simp⟩
  | cons key rest ih =>
    obtain ⟨b, hb, hiff⟩ := ih (fun k hk => h k (List.mem_cons_of_mem _ hk))
    have hk := h key (List.mem_cons_self _ _)
    cases hp : ParseCIDR key with
    | none => exact absurd hp hk
    | some r =>
      obtain ⟨ip, n⟩ := r
      by_cases hc : Contains n realIP = true
      · refine ⟨true, by simp [checkIPNet.scan, hp, hc], ?_⟩
        simp only [true_iff]
        exact ⟨key, List.mem_cons_self _ _, ip, n, hp, hc⟩
      · refine ⟨b, by simp [checkIPNet.scan, hp, hc, hb], ?_⟩
        rw [hiff]
        constructor
        · rintro ⟨k, hk, ip', n', h1, h2⟩
          exact ⟨k, List.mem_cons_of_mem _ hk, ip', n', h1, h2⟩
        · rintro ⟨k, hk, ip', n', h1, h2⟩
          rcases List.mem_cons.1 hk with rfl | hk
          · rw [hp] at h1
            cases h1
            exact absurd h2 hc
          · exact ⟨k, hk, ip', n', h1, h2⟩

/-- A scan that meets a key that does not parse before any match panics. -/
theorem scan_panics_of_unparsable_head (realIP : List Nat) (key : List Char)
    (rest : List (List Char)) (h : ParseCIDR key = none) :
    checkIPNet.scan realIP (key :: rest) = none := by
  simp [checkIPNet.scan, h]

/-- A line that does not parse is stored all the same, under the key `<nil>`. -/
theorem key_of_unparsable_line (value : List Char) (h : ParseCIDR value = none) :
    updateIPNets.key value = "<nil>".toList := by
  simp [updateIPNets.key, h, IPNetString]

/-- Every body with a line that does not parse installs the key `<nil>`. -/
theorem nil_key_mem_of_unparsable_line (respBytes : List Char) (readErr : Bool)
    (ipnets : shmap) (value : List Char) (hv : value ∈ Split '\n' (TrimSpace respBytes))
    (h : ParseCIDR value = none) :
    "<nil>".toList ∈ (updateIPNets (Fetched.body respBytes readErr) ipnets).m := by
  rw [updateIPNets_body_m, List.mem_toFinset, List.mem_map]
  exact ⟨value, hv, key_of_unparsable_line value h⟩

/-- When `http.Get` returns an error, `updateIPNets` returns at once and the set after
the call is the set before the call, whatever that set was. -/
theorem updateIPNets_get_error (ipnets : shmap) :
    updateIPNets Fetched.getError ipnets = ipnets := rfl

/-- An error of `io.ReadAll` does not end the call: the set is replaced from the bytes
read before the error, just as for a body read to its end. -/
theorem updateIPNets_read_error (respBytes : List Char) (ipnets : shmap) :
    updateIPNets (Fetched.body respBytes true) ipnets =
      updateIPNets (Fetched.body respBytes false) ipnets := rfl

/-- The scan of `checkIPNet` panics exactly when it meets a key that does not parse
before a network that contains the address. -/
theorem scan_eq_none_iff (realIP : List Nat) (order : List (List Char)) :
    checkIPNet.scan realIP order = none ↔
      ∃ pre key post, order = pre ++ key :: post ∧ ParseCIDR key = none ∧
        ∀ k ∈ pre, ∃ ip n, ParseCIDR k = some (ip, n) ∧ Contains n realIP = false := by
  induction order with
  | nil =>
    simp only [checkIPNet.scan, reduceCtorEq, false_iff]
    rintro ⟨pre, key, post, h, _⟩
    simp at h
  | cons k rest ih =>
    cases hp : ParseCIDR k with
    | none =>
      simp only [checkIPNet.scan, hp, true_iff]
      exact ⟨[], k, rest, rfl, hp, by simp⟩
    | some r =>
      obtain ⟨ip, n⟩ := r
      by_cases hc : Contains n realIP = true
      · simp only [checkIPNet.scan, hp, hc, if_true, reduceCtorEq, false_iff]
        rintro ⟨pre, key, post, h, hkey, hpre⟩
        cases pre with
        | nil =>
          simp only [List.nil_append, List.cons.injEq] at h
          rw [← h.1, hp] at hkey
          simp at hkey
        | cons a pre =>
          simp only [List.cons_append, List.cons.injEq] at h
          obtain ⟨ip1, n1, h1, h2⟩ := hpre a (List.mem_cons_self _ _)
          rw [← h.1, hp] at h1
          simp only [Option.some.injEq, Prod.mk.injEq] at h1
          rw [← h1.2, hc] at h2
          simp at h2
      · simp only [checkIPNet.scan, hp, hc, if_false, Bool.false_eq_true]
        rw [ih]
        constructor
        · rintro ⟨pre, key, post, h, hkey, hpre⟩
          refine ⟨k :: pre, key, post, by rw [h]; rfl, hkey, ?_⟩
          intro a ha
          rcases List.mem_cons.1 ha with rfl | ha
          · exact ⟨ip, n, hp, by simpa using hc⟩
          · exact hpre a ha
        · rintro ⟨pre, key, post, h, hkey, hpre⟩
          cases pre with
          | nil =>
            simp only [List.nil_append, List.cons.injEq] at h
            rw [← h.1, hp] at hkey
            simp at hkey
          | cons a pre =>
            simp only [List.cons_append, List.cons.injEq] at h
            exact ⟨pre, key, post, h.2, hkey,
              fun b hb => hpre b (List.mem_cons_of_mem _ hb)⟩

/-- For a map with at least one key the body of `getIPNets` is the JSON array of
the keys, in the order in which they were ranged over. -/
theorem getIPNets_of_ne_nil (order : List (List Char)) (h : order ≠ []) :
    getIPNets order = '[' :: (jsonElems order ++ [']']) := by
  simp [getIPNets, getIPNets_ipnets_of_ne_nil order h, jsonMarshalStrings]

/-- The status 400 is written exactly when the header is missing or does not parse,
and the body is then the plain-text message. -/
theorem checkIPNet_400_iff (order : List (List Char)) (header : Option (List Char)) :
    ((∃ body, checkIPNet order header = Outcome.response 400 body) ↔
      ParseIP (header.getD []) = none) ∧
    (ParseIP (header.getD []) = none →
      checkIPNet order header =
        Outcome.response 400 "X-Real-IP header is not provided or malformed".toList) := by
  cases hp : ParseIP (header.getD []) with
  | none => simp [checkIPNet, hp]
  | some realIP =>
    simp only [checkIPNet, hp, reduceCtorEq, iff_false, not_exists, false_implies, and_true]
    intro body
    cases checkIPNet.scan realIP order with
    | none => simp
    | some b => cases b <;> simp

/-- When every key of the map parses, a request with a parseable address is answered
503 if a stored network contains the address and 200 if none does, with the address
in its text form as the body. -/
theorem checkIPNet_of_all_keys_parse (order : List (List Char)) (header : Option (List Char))
    (realIP : List Nat) (hp : ParseIP (header.getD []) = some realIP)
    (h : ∀ key ∈ order, ParseCIDR key ≠ none) :
    ∃ isMatch,
      checkIPNet order header =
        Outcome.response (if isMatch = true then 503 else 200)
          ("\x7b\"real_ip\":\"".toList ++ IPString realIP ++ "\"\x7d".toList) ∧
      (isMatch = true ↔
        ∃ key ∈ order, ∃ ip n, ParseCIDR key = some (ip, n) ∧ Contains n realIP = true) := by
  obtain ⟨hl, hb⟩ := ParseIP_wf _ _ hp
  obtain ⟨b, hscan, hiff⟩ := scan_of_all_keys_parse realIP order h
  refine ⟨b, ?_, hiff⟩
  simp only [checkIPNet, hp, hscan, jsonMarshalRealip_eq realIP hl hb]

theorem Split_ne_nil (sep : Char) (s : List Char) : Split sep s ≠ [] := by
  cases s with
  | nil => simp [Split]
  | cons c cs =>
    rw [Split]
    split_ifs
    · simp
    · split <;> simp

/-! ## The library functions on sample inputs -/

set_option maxRecDepth 100000 in
/-- Keys stored for sample lines: host bits are masked away, hexadecimal digits are
written in lower case, an IPv4-mapped network is written in dotted form, and a
line that is no CIDR block gets the key `<nil>`. -/
theorem key_samples :
    updateIPNets.key "10.1.2.5/24".toList = "10.1.2.0/24".toList ∧
    updateIPNets.key "10.1.2.5/024".toList = "10.1.2.0/24".toList ∧
    updateIPNets.key "2001:DB8:0:0:1::1/32".toList = "2001:db8::/32".toList ∧
    updateIPNets.key "::ffff:10.1.2.5/104".toList = "10.0.0.0/8".toList ∧
    updateIPNets.key "010.1.2.5/24".toList = "<nil>".toList ∧
    updateIPNets.key "10.1.2.5/33".toList = "<nil>".toList ∧
    updateIPNets.key "10.1.2.5".toList = "<nil>".toList ∧
    updateIPNets.key "".toList = "<nil>".toList := by
  decide

set_option maxRecDepth 100000 in
/-- The two requests of the specification: `10.1.2.3` is matched against the set
holding `10.0.0.0/8` (status 503) and not matched against the set holding only
`192.168.0.0/16` (status 200); a missing header is answered 400. -/
theorem checkIPNet_samples :
    checkIPNet ["10.0.0.0/8".toList] (some "10.1.2.3".toList) =
      Outcome.response 503 "\x7b\"real_ip\":\"10.1.2.3\"\x7d".toList ∧
    checkIPNet ["192.168.0.0/16".toList] (some "10.1.2.3".toList) =
      Outcome.response 200 "\x7b\"real_ip\":\"10.1.2.3\"\x7d".toList ∧
    checkIPNet ["10.0.0.0/8".toList] none =
      Outcome.response 400 "X-Real-IP header is not provided or malformed".toList ∧
    checkIPNet ["10.0.0.0/8".toList] (some "10.1.2".toList) =
      Outcome.response 400 "X-Real-IP header is not provided or malformed".toList := by
  decide

set_option maxRecDepth 100000 in
/-- A refresh on a sample: the network of the prior set that the body does not name
is gone, the networks of the body are installed. -/
theorem updateIPNets_sample :
    (updateIPNets (Fetched.body "10.0.0.0/8\n172.16.0.0/12\n".toList false)
        ⟨{"10.0.0.0/8".toList, "192.168.0.0/16".toList}⟩).m =
      {"10.0.0.0/8".toList, "172.16.0.0/12".toList} := by
  decide

/-! ## The claims -/

set_option maxRecDepth 100000 in
/-- C1 (code bug): the loop of `updateIPNets` logs the parse error and goes on to
`ipnets.m[ipnet.String()]` with the nil network, so the body of the claim installs
the three keys `10.0.0.0/8`, `<nil>`, `192.168.0.0/16`, and the empty body installs
the one key `<nil>`. -/
theorem C1_unparsable_line_adds_nil_key :
    (updateIPNets (Fetched.body "10.0.0.0/8\nnotacidr\n192.168.0.0/16".toList false) ⟨∅⟩).m =
      {"10.0.0.0/8".toList, "<nil>".toList, "192.168.0.0/16".toList} ∧
    "<nil>".toList ∉ ({"10.0.0.0/8".toList, "192.168.0.0/16".toList} : Finset (List Char)) ∧
    (updateIPNets (Fetched.body "".toList false) ⟨∅⟩).m = {"<nil>".toList} := by
  decide

/-- C2: when every line of the fetched body is a valid CIDR string, the slice built by
`getIPNets` after `updateIPNets` (and written as a JSON array) has no duplicates and
holds exactly the texts of the parsed networks, each network being the address of
its line with the host bits masked away. -/
theorem C2_list_is_canonical_set (respBytes : List Char) (readErr : Bool) (ipnets : shmap)
    (order : List (List Char))
    (hvalid : ∀ line ∈ Split '\n' (TrimSpace respBytes), ParseCIDR line ≠ none)
    (hrange : IsRange (updateIPNets (Fetched.body respBytes readErr) ipnets).m order) :
    getIPNets.ipnets order = some order ∧
    getIPNets order = '[' :: (jsonElems order ++ [']']) ∧
    order.Nodup ∧
    ∀ k, k ∈ order ↔
      ∃ line ∈ Split '\n' (TrimSpace respBytes), ∃ ip n,
        ParseCIDR line = some (ip, n) ∧ n.IP = Mask ip n.Mask ∧ k = IPNetString (some n) := by
  obtain ⟨hnd, hfin⟩ := hrange
  rw [updateIPNets_body_m] at hfin
  have hmem : ∀ k, k ∈ order ↔
      ∃ line ∈ Split '\n' (TrimSpace respBytes), ∃ ip n,
        ParseCIDR line = some (ip, n) ∧ n.IP = Mask ip n.Mask ∧ k = IPNetString (some n) := by
    intro k
    rw [← List.mem_toFinset, hfin, List.mem_toFinset, List.mem_map]
    constructor
    · rintro ⟨line, hline, rfl⟩
      cases hp : ParseCIDR line with
      | none => exact absurd hp (hvalid line hline)
      | some r =>
        obtain ⟨ip, n⟩ := r
        obtain ⟨a, ones, _, _, rfl, rfl⟩ := ParseCIDR_some line ip n hp
        exact ⟨line, hline, _, _, hp, rfl, by simp [updateIPNets.key, hp]⟩
    · rintro ⟨line, hline, ip, n, hp, _, rfl⟩
      exact ⟨line, hline, by simp [updateIPNets.key, hp]⟩
  have hne : order ≠ [] := by
    cases hs : Split '\n' (TrimSpace respBytes) with
    | nil => exact absurd hs (Split_ne_nil _ _)
    | cons line rest =>
      have hline : line ∈ Split '\n' (TrimSpace respBytes) := by rw [hs]; exact List.mem_cons_self _ _
      cases hp : ParseCIDR line with
      | none => exact absurd hp (hvalid line hline)
      | some r =>
        obtain ⟨ip, n⟩ := r
        obtain ⟨a, ones, _, _, rfl, rfl⟩ := ParseCIDR_some line ip n hp
        have : IPNetString (some _) ∈ order := (hmem _).2 ⟨line, hline, _, _, hp, rfl, rfl⟩
        exact List.ne_nil_of_mem this
  exact ⟨getIPNets_ipnets_of_ne_nil order hne, getIPNets_of_ne_nil order hne, hnd, hmem⟩

set_option maxRecDepth 100000 in
/-- C2 at the body of the claim: the lines `10.1.2.5/24` and `10.1.2.0/24` give the one
entry `10.1.2.0/24`. -/
theorem C2_list_is_canonical_set_witness :
    (∀ line ∈ Split '\n' (TrimSpace "10.1.2.5/24\n10.1.2.0/24".toList), ParseCIDR line ≠ none) ∧
    IsRange (updateIPNets (Fetched.body "10.1.2.5/24\n10.1.2.0/24".toList false) ⟨∅⟩).m
      ["10.1.2.0/24".toList] ∧
    getIPNets ["10.1.2.0/24".toList] = "[\"10.1.2.0/24\"]".toList :=
  ⟨by decide, by decide,
    (C2_list_is_canonical_set "10.1.2.5/24\n10.1.2.0/24".toList false ⟨∅⟩ ["10.1.2.0/24".toList]
      (by decide) (by decide)).2.1.trans (by decide)⟩

set_option maxRecDepth 100000 in
/-- C3 (code bug): the body `10.0.0.0/8`, `notacidr` installs the key `<nil>`, which
does not re-parse as a CIDR block; for the parseable address `192.168.1.1`, which no
stored network contains, the scan of `checkIPNet` reaches that key in either order
of the map and dereferences the nil network: the handler panics. -/
theorem C3_check_panics_on_stored_nil_key :
    (updateIPNets (Fetched.body "10.0.0.0/8\nnotacidr".toList false) ⟨∅⟩).m =
      {"10.0.0.0/8".toList, "<nil>".toList} ∧
    ParseCIDR "<nil>".toList = none ∧
    ParseIP "192.168.1.1".toList = some [0, 0, 0, 0, 0, 0, 0, 0, 0, 0, 255, 255, 192, 168, 1, 1] ∧
    checkIPNet ["10.0.0.0/8".toList, "<nil>".toList] (some "192.168.1.1".toList) =
      Outcome.panic ∧
    checkIPNet ["<nil>".toList, "10.0.0.0/8".toList] (some "192.168.1.1".toList) =
      Outcome.panic := by
  decide

set_option maxRecDepth 100000 in
/-- C4 (code bug): in the state installed from the body `notacidr`, `10.0.0.0/8` the
stored prefix `10.0.0.0/8` contains `10.1.2.3`, yet when the map is ranged over with
the key `<nil>` first the scan panics on the nil network before it reaches that
prefix, so no match is computed. -/
theorem C4_scan_panics_before_match :
    IsRange (updateIPNets (Fetched.body "notacidr\n10.0.0.0/8".toList false) ⟨∅⟩).m
      ["<nil>".toList, "10.0.0.0/8".toList] ∧
    ParseIP "10.1.2.3".toList = some [0, 0, 0, 0, 0, 0, 0, 0, 0, 0, 255, 255, 10, 1, 2, 3] ∧
    (ParseCIDR "10.0.0.0/8".toList).map
      (fun r => Contains r.2 [0, 0, 0, 0, 0, 0, 0, 0, 0, 0, 255, 255, 10, 1, 2, 3]) = some true ∧
    checkIPNet.scan [0, 0, 0, 0, 0, 0, 0, 0, 0, 0, 255, 255, 10, 1, 2, 3]
      ["<nil>".toList, "10.0.0.0/8".toList] = none ∧
    checkIPNet ["<nil>".toList, "10.0.0.0/8".toList] (some "10.1.2.3".toList) =
      Outcome.panic := by
  decide

set_option maxRecDepth 100000 in
/-- C5 (code bug): the fetch fails while the body is read, after the first of two
lines: `io.ReadAll` returns the bytes read and an error, `updateIPNets` logs the error
and goes on, and the set installed before, `173.245.48.0/20` and `103.21.244.0/22`,
is replaced by the set of the bytes read, which lacks the second network. -/
theorem C5_read_error_replaces_set :
    updateIPNets (Fetched.body "173.245.48.0/20\n".toList true)
        ⟨{"173.245.48.0/20".toList, "103.21.244.0/22".toList}⟩ =
      ⟨{"173.245.48.0/20".toList}⟩ ∧
    updateIPNets (Fetched.body "173.245.48.0/20\n".toList true)
        ⟨{"173.245.48.0/20".toList, "103.21.244.0/22".toList}⟩ ≠
      ⟨{"173.245.48.0/20".toList, "103.21.244.0/22".toList}⟩ := by
  decide

set_option maxRecDepth 100000 in
/-- C6 (code bug): after a fetch that returned an empty body the map holds the one
key `<nil>`; a request with the parseable address `192.0.2.1` then gets neither 200
nor 503 nor 400: the handler panics in the scan before any status is written. -/
theorem C6_parseable_address_gets_no_status :
    IsRange (updateIPNets (Fetched.body "".toList false) ⟨∅⟩).m ["<nil>".toList] ∧
    ParseIP "192.0.2.1".toList = some [0, 0, 0, 0, 0, 0, 0, 0, 0, 0, 255, 255, 192, 0, 2, 1] ∧
    checkIPNet ["<nil>".toList] (some "192.0.2.1".toList) = Outcome.panic := by
  decide

/-- C7: after a fetch that returned a body the set is a function of the body alone:
two runs from different prior sets end in the same set, and that set is exactly the
set of the keys stored for the lines of the body, so every line has its key
installed and a key of the prior set is in it only if a line of the body gives it. -/
theorem C7_refresh_replaces_wholesale (respBytes : List Char) (readErr : Bool)
    (ipnets1 ipnets2 : shmap) :
    updateIPNets (Fetched.body respBytes readErr) ipnets1 =
      updateIPNets (Fetched.body respBytes readErr) ipnets2 ∧
    (updateIPNets (Fetched.body respBytes readErr) ipnets1).m =
      ((Split '\n' (TrimSpace respBytes)).map updateIPNets.key).toFinset ∧
    (∀ value ∈ Split '\n' (TrimSpace respBytes),
      updateIPNets.key value ∈ (updateIPNets (Fetched.body respBytes readErr) ipnets1).m) ∧
    (∀ k, k ∈ (updateIPNets (Fetched.body respBytes readErr) ipnets1).m ↔
      ∃ value ∈ Split '\n' (TrimSpace respBytes), updateIPNets.key value = k) ∧
    (updateIPNets (Fetched.body respBytes readErr) ipnets1).m ≠ ∅ := by
  have hm := updateIPNets_body_m respBytes readErr ipnets1
  have hiff : ∀ k, k ∈ (updateIPNets (Fetched.body respBytes readErr) ipnets1).m ↔
      ∃ value ∈ Split '\n' (TrimSpace respBytes), updateIPNets.key value = k := by
    intro k
    rw [hm, List.mem_toFinset, List.mem_map]
  refine ⟨rfl, hm, fun value hv => (hiff _).2 ⟨value, hv, rfl⟩, hiff, ?_⟩
  cases hs : Split '\n' (TrimSpace respBytes) with
  | nil => exact absurd hs (Split_ne_nil _ _)
  | cons line rest =>
    intro hempty
    have hmem : updateIPNets.key line ∈
        (updateIPNets (Fetched.body respBytes readErr) ipnets1).m :=
      (hiff _).2 ⟨line, by rw [hs]; exact List.mem_cons_self _ _, rfl⟩
    rw [hempty] at hmem
    simp at hmem

set_option maxRecDepth 100000 in
/-- C8 (code bug): before any successful refresh (the first fetch failed) the map is
empty, the slice of `getIPNets` stays nil and `json.Marshal` writes `null`, which is
not a JSON array. -/
theorem C8_empty_set_written_as_null :
    updateIPNets Fetched.getError ⟨∅⟩ = ⟨∅⟩ ∧ IsRange (updateIPNets Fetched.getError ⟨∅⟩).m [] ∧
    getIPNets [] = "null".toList := by
  decide

set_option maxRecDepth 100000 in
/-- C10 as stated fails at the line `::ffff:10.1.2.5/104`: it parses to a network
with a 16-byte address and a prefix length of 104, its key is `10.0.0.0/8`, and the
key re-parses to another network, with a 4-byte address and a prefix length of 8. -/
theorem C10_mapped_line_reparses_to_other_network :
    ParseCIDR "::ffff:10.1.2.5/104".toList =
      some ([0, 0, 0, 0, 0, 0, 0, 0, 0, 0, 255, 255, 10, 1, 2, 5],
        { IP := [0, 0, 0, 0, 0, 0, 0, 0, 0, 0, 255, 255, 10, 0, 0, 0],
          Mask := [255, 255, 255, 255, 255, 255, 255, 255, 255, 255, 255, 255, 255, 0, 0, 0] }) ∧
    updateIPNets.key "::ffff:10.1.2.5/104".toList = "10.0.0.0/8".toList ∧
    ParseCIDR (updateIPNets.key "::ffff:10.1.2.5/104".toList) =
      some ([0, 0, 0, 0, 0, 0, 0, 0, 0, 0, 255, 255, 10, 0, 0, 0],
        { IP := [10, 0, 0, 0], Mask := [255, 0, 0, 0] }) ∧
    (ParseCIDR (updateIPNets.key "::ffff:10.1.2.5/104".toList)).map Prod.snd ≠
      (ParseCIDR "::ffff:10.1.2.5/104".toList).map Prod.snd ∧
    simpleMaskLength
      [255, 255, 255, 255, 255, 255, 255, 255, 255, 255, 255, 255, 255, 0, 0, 0] = some 104 ∧
    simpleMaskLength [255, 0, 0, 0] = some 8 := by
  decide

/-- C10, amended: for a line that parses as a CIDR block, the key stored by
`updateIPNets` parses again in `checkIPNet`, to the network made of the network
number and the mask that `networkNumberAndMask` gives for the network of the line
(the pair that `String` and `Contains` work on), a mask of ones followed by zeros; the
text of the re-parsed network is the key itself, the two networks contain the same
addresses, and the re-parsed network is the network of the line itself unless that
one holds an IPv4-mapped address in its 16-byte form. -/
theorem C10_stored_key_reparses (value : List Char) (ip : List Nat) (n : IPNet)
    (h : ParseCIDR value = some (ip, n)) :
    ∃ ip1 n1 nn m l, ParseCIDR (updateIPNets.key value) = some (ip1, n1) ∧
      networkNumberAndMask n = some (nn, m) ∧ networkNumberAndMask n1 = some (nn, m) ∧
      n1 = { IP := nn, Mask := m } ∧
      simpleMaskLength m = some l ∧
      IPNetString (some n1) = updateIPNets.key value ∧
      (∀ a, Contains n1 a = Contains n a) ∧
      (To4 n.IP = [] ∨ n.IP.length = 4 → n1 = n) := by
  have hkey : updateIPNets.key value = IPNetString (some n) := by
    simp [updateIPNets.key, h]
  obtain ⟨ip1, n1, nn, m, l, h1, h2, h3, h4, h5, h6, h7⟩ := reparses_of_ParseCIDR value ip n h
  rw [hkey]
  exact ⟨ip1, n1, nn, m, l, h1, h2, h3, h4, h5, h6, nnm_Contains n1 n (h3.trans h2.symm), h7⟩

set_option maxRecDepth 100000 in
/-- C10, amended, at the line `10.1.2.5/24`, whose key is `10.1.2.0/24`. -/
theorem C10_stored_key_reparses_witness :
    ParseCIDR "10.1.2.5/24".toList =
      some ([0, 0, 0, 0, 0, 0, 0, 0, 0, 0, 255, 255, 10, 1, 2, 5],
        { IP := [10, 1, 2, 0], Mask := [255, 255, 255, 0] }) ∧
    ∃ ip1 n1 nn m l, ParseCIDR (updateIPNets.key "10.1.2.5/24".toList) = some (ip1, n1) ∧
      networkNumberAndMask { IP := [10, 1, 2, 0], Mask := [255, 255, 255, 0] } = some (nn, m) ∧
      networkNumberAndMask n1 = some (nn, m) ∧
      n1 = { IP := nn, Mask := m } ∧
      simpleMaskLength m = some l ∧
      IPNetString (some n1) = updateIPNets.key "10.1.2.5/24".toList ∧
      (∀ a, Contains n1 a = Contains { IP := [10, 1, 2, 0], Mask := [255, 255, 255, 0] } a) ∧
      (To4 ({ IP := [10, 1, 2, 0], Mask := [255, 255, 255, 0] } : IPNet).IP = [] ∨
          ({ IP := [10, 1, 2, 0], Mask := [255, 255, 255, 0] } : IPNet).IP.length = 4 →
        n1 = { IP := [10, 1, 2, 0], Mask := [255, 255, 255, 0] }) :=
  ⟨by decide,
    C10_stored_key_reparses "10.1.2.5/24".toList
      [0, 0, 0, 0, 0, 0, 0, 0, 0, 0, 255, 255, 10, 1, 2, 5]
      { IP := [10, 1, 2, 0], Mask := [255, 255, 255, 0] } (by decide)⟩

end GoCheckIP
